import Mathlib

/-!
# Verification of the `bayesian` package core

A shallow embedding in Lean 4 of the probability-table algebra, the naive
variable-elimination engine and the junction-tree engine of the `bayesian`
Python package, together with proofs and refutations of the specified
properties.

Modelling conventions, used uniformly below:

* Python `float` arithmetic is modelled by exact rationals (`ℚ`).
* A Python `Variable` has reference identity; it is modelled by a structure
  carrying a numeric identity (the display symbol is irrelevant to the
  semantics and omitted).
* NumPy arrays are modelled by flat (row-major, C-order) lists together with
  an explicit shape.  `transpose`, `tile` and axis sums are given their
  documented index semantics.
* Python raises exceptions; fallible operations return `Except Err`.
* Python `set` iteration order is implementation defined.  The model fixes
  the deterministic first-occurrence order everywhere a `set` is iterated.
  No verified property below depends on this choice except through the
  concrete values of concrete runs.
-/

namespace Bayesian

/-- A variable of a Bayesian network (`bayesian.Variable`): reference
identity and a number of mutually exclusive states. -/
structure Variable where
  id : Nat
  nbStates : Nat
deriving DecidableEq

/-- Product of a list of naturals (`functools.reduce(operator.mul, ...)`
with unit 1; NumPy shape product). -/
def prodNat (l : List Nat) : Nat := l.foldr (· * ·) 1

/-- The shape (`Domain.nb_states`) of a list of variables. -/
def shapeOf (d : List Variable) : List Nat := d.map Variable.nbStates

/-- The size (`Domain.size`) of a list of variables: the number of joint
states. -/
def size (d : List Variable) : Nat := prodNat (shapeOf d)

/-- Row-major multi-index of a flat index (NumPy `np.unravel_index`). -/
def unravel : List Nat → Nat → List Nat
  | [], _ => []
  | _ :: rest, i => i / prodNat rest :: unravel rest (i % prodNat rest)

/-- Row-major flat index of a multi-index (NumPy C-order `ravel`). -/
def ravel : List Nat → List Nat → Nat
  | [], _ => 0
  | _ :: _, [] => 0
  | _ :: rest, x :: xs => x * prodNat rest + ravel rest xs

/-- Position of the first occurrence of a variable in a list
(Python `list.index` / `tuple.index`, total version returning the length
when absent, as `List.findIdx` does). -/
def pos (l : List Variable) (v : Variable) : Nat :=
  l.findIdx fun w => decide (w = v)

/-- The input multi-index corresponding to an output multi-index of
NumPy `transpose(axes)`: output axis `k` of the result is input axis
`axes[k]`, so the input coordinate on axis `m` is the output coordinate
on the axis `k` with `axes[k] = m`. -/
def permuteIdx (axes idx : List Nat) : List Nat :=
  (List.range axes.length).map fun m => idx.getD (axes.findIdx fun k => decide (k = m)) 0

/-- NumPy `a.reshape(shape).transpose(axes).ravel()` on a flat list `flat`
of shape `shape`: the result has shape `axes.map shape.getD`, and its entry
at multi-index `j` is the entry of `flat` at the multi-index obtained by
sending coordinate `k` of `j` to input axis `axes[k]`. -/
def transposeFlat (shape axes : List Nat) (flat : List α) (dflt : α) : List α :=
  let outShape := axes.map fun k => shape.getD k 1
  (List.range (prodNat outShape)).map fun i =>
    flat.getD (ravel shape (permuteIdx axes (unravel outShape i))) dflt

/-- NumPy `np.tile(a.reshape(baseShape), reps).ravel()`: the result has
shape `baseShape * reps` elementwise and entry `a[idx mod baseShape]` at
multi-index `idx`. -/
def tileFlat (baseShape reps : List Nat) (flat : List α) (dflt : α) : List α :=
  let outShape := List.zipWith (· * ·) baseShape reps
  (List.range (prodNat outShape)).map fun i =>
    flat.getD
      (ravel baseShape (List.zipWith (fun x s => x % s) (unravel outShape i) baseShape))
      dflt

/-- Models the free function `bayesian.map(subdomain, domain)`
(`bayesian/__init__.py`): the flat-index map between two domains, built by
reordering an `arange` over the subdomain with `transpose(suborder)` and
then broadcasting it over the axes of `domain` absent from `subdomain`
with `reshape`/`tile`. -/
def map (subdomain domain : List Variable) : List Nat :=
  let reordered := domain.filter fun v => decide (v ∈ subdomain)
  let suborder := subdomain.map fun v => reordered.findIdx fun w => decide (w = v)
  let subindices := List.range (size subdomain)
  let reorderedSub := transposeFlat (shapeOf subdomain) suborder subindices 0
  let newShape := domain.map fun v => if v ∈ subdomain then v.nbStates else 1
  let reps := domain.map fun v => if v ∈ subdomain then 1 else v.nbStates
  tileFlat newShape reps reorderedSub 0

/-- Concrete binary variables used in the concrete runs below. -/
def va : Variable := ⟨0, 2⟩

def vb : Variable := ⟨1, 2⟩

def vc : Variable := ⟨2, 2⟩

def vd : Variable := ⟨3, 2⟩

-- The model reproduces the index maps asserted by the package's own test
-- suite (`tests/test_bayesian.py`) for every involutive reordering.
example : map [va, vb] [va, vb, vc] = [0, 0, 1, 1, 2, 2, 3, 3] := by decide

example : map [vb, va] [va, vb, vc] = [0, 0, 2, 2, 1, 1, 3, 3] := by decide

example : map [va, vb] [va, vc, vb] = [0, 1, 0, 1, 2, 3, 2, 3] := by decide

example : map [va, vb] [vb, va, vc] = [0, 0, 2, 2, 1, 1, 3, 3] := by decide

example : map [vd, va] [va, vb, vc, vd] =
    [0, 2, 0, 2, 0, 2, 0, 2, 1, 3, 1, 3, 1, 3, 1, 3] := by decide

-- For the non-involutive reordering `(b,c,a)` inside `(a,b,c)` the code
-- passes the inverse of the permutation NumPy `transpose` expects, so it
-- produces the inverse gather `[0,4,1,5,2,6,3,7]` where its own test
-- `test_map_BCA_ABC` asserts `[0,2,4,6,1,3,5,7]`.
example : map [vb, vc, va] [va, vb, vc] = [0, 4, 1, 5, 2, 6, 3, 7] := by decide

/-- Decidable equality of `Except` results, used to settle concrete runs. -/
instance {ε α : Type} [DecidableEq ε] [DecidableEq α] : DecidableEq (Except ε α)
  | .ok x, .ok y => decidable_of_iff (x = y) (by simp)
  | .ok _, .error _ => isFalse (by simp)
  | .error _, .ok _ => isFalse (by simp)
  | .error e, .error f => decidable_of_iff (e = f) (by simp)

/-- Kinds of Python exceptions surfaced by the modelled code. -/
inductive Err where
  /-- `ValueError` from `Domain.__new__` on an empty iterable. -/
  | emptyDomain
  /-- `ValueError` from `Domain.__new__` on duplicated variables. -/
  | duplicateVariable
  /-- `ValueError` from `tuple.index` / `Domain.__sub__` on an absent variable. -/
  | unknownVariable
  /-- `ValueError` from the `Probability.values` setter on a size mismatch. -/
  | sizeMismatch
  /-- `ValueError` from the `Probability.values` setter on all-zero values. -/
  | zeroValues
  /-- `AttributeError` from calling a method on `None`. -/
  | noneError
  /-- `TypeError` from `functools.reduce` on an empty sequence. -/
  | emptyProduct
deriving DecidableEq

/-- Models `bayesian.Domain.__new__` validation: the domain must be
nonempty and free of duplicates. -/
def mkDomain (l : List Variable) : Except Err (List Variable) :=
  if l.length = 0 then .error .emptyDomain
  else if l.Nodup then .ok l
  else .error .duplicateVariable

/-- First-occurrence deduplication, the order produced by Python's
`sorted(set(iterable), key=iterable.index)`. -/
def firstDedup (seen : List Variable) : List Variable → List Variable
  | [] => []
  | v :: rest =>
      if v ∈ seen then firstDedup seen rest
      else v :: firstDedup (v :: seen) rest

/-- Models `bayesian.Domain.__mul__`: concatenation with duplicates removed,
preserving first occurrence. -/
def domMul (l r : List Variable) : List Variable := firstDedup [] (l ++ r)

/-- Models `bayesian.Domain.__sub__`: remove a variable, failing when it is
absent. -/
def domSub (d : List Variable) (v : Variable) : Except Err (List Variable) :=
  if v ∈ d then .ok (d.filter fun w => decide (w ≠ v))
  else .error .unknownVariable

/-- Equality of domains as the source defines it: `Domain` subclasses
`tuple` and overrides no `__eq__`, so `==` is element-wise tuple equality. -/
def domainEq (d1 d2 : List Variable) : Bool := decide (d1 = d2)

/-- The order-independent domain comparison used by `tables.Probability.eq`:
`set(self.domain) == set(other.domain)`. -/
def domainSetEq (d1 d2 : List Variable) : Bool :=
  (d1.all fun v => decide (v ∈ d2)) && (d2.all fun v => decide (v ∈ d1))

/-- A probability table (`bayesian.Table` of `_core.py` and
`tables.Probability`): a domain, a flat row-major value array and a
normalization scalar.  The true unnormalized factor is
`values * normalization`. -/
structure Table where
  domain : List Variable
  values : List ℚ
  normalization : ℚ
deriving DecidableEq

/-- Well-formedness of a table: the value array has the domain's size, the
domain is free of duplicates and every variable has at least one state. -/
def TableWF (t : Table) : Prop :=
  t.values.length = size t.domain ∧ t.domain.Nodup ∧ ∀ v ∈ t.domain, 1 ≤ v.nbStates

instance : DecidablePred TableWF := fun t => by unfold TableWF; infer_instance

/-- Models `bayesian.Table.__init__` with explicit values: validates the
domain, then normalizes.  When the raw sum `z` is nonzero the stored values
are `values / z` and the normalization is multiplied by `z`; when `z` is
zero the raw values are stored unchanged and no error is raised. -/
def mkTable (domain : List Variable) (values : List ℚ) (normalization : ℚ) :
    Except Err Table := do
  let dom ← mkDomain domain
  let z := values.sum
  if z ≠ 0 then
    return { domain := dom, values := values.map (· / z), normalization := normalization * z }
  else
    return { domain := dom, values := values, normalization := normalization }

/-- NumPy `np.sum(flat.reshape(shape), axis)` flattened again: entry `j` of
the result is the sum over the removed axis of the entries of `flat` whose
multi-index restricts to the multi-index of `j`. -/
def sumAxis (shape : List Nat) (axis : Nat) (flat : List ℚ) : List ℚ :=
  let outShape := shape.eraseIdx axis
  let s := shape.getD axis 1
  (List.range (prodNat outShape)).map fun j =>
    ((List.range s).map fun t =>
      flat.getD (ravel shape (List.insertIdx axis t (unravel outShape j))) 0).sum

/-- Models `bayesian.Table.marginalize`: locate the variable's axis
(`tuple.index`, raising when absent), reduce-sum along it, drop it from
the domain and rebuild through the constructor. -/
def Table.marginalize (t : Table) (v : Variable) : Except Err Table := do
  match t.domain.findIdx? fun w => decide (w = v) with
  | none => throw .unknownVariable
  | some idx =>
      let newValues := sumAxis (shapeOf t.domain) idx t.values
      let newDomain := t.domain.eraseIdx idx
      mkTable newDomain newValues t.normalization

/-- The variable split of `bayesian.Table.__mul__`: intersection,
left-only and right-only parts.  Python iterates `set` objects here; the
model fixes first-occurrence order. -/
def mulParts (a b : Table) : List Variable × List Variable × List Variable :=
  (a.domain.filter fun v => decide (v ∉ b.domain),
   a.domain.filter fun v => decide (v ∈ b.domain),
   b.domain.filter fun v => decide (v ∉ a.domain))

/-- The raw value array of `bayesian.Table.__mul__` before renormalization.
The factors are transposed to `left_only ++ intersection` and
`intersection ++ right_only` order, and entry `i` of the result is
`left[i / left_divide] * right[i % right_mod]`.  That inner loop is
`table_mul`, provided by the compiled module `bayesian._optimized` whose
source is not in the repository; it is modelled from the reference loop
kept in comments beside the call (and from the spec's product formula). -/
def mulRaw (a b : Table) : List ℚ :=
  let (leftOnly, interL, rightOnly) := mulParts a b
  let leftDomain := leftOnly ++ interL
  let rightDomain := interL ++ rightOnly
  let newDomain := leftOnly ++ interL ++ rightOnly
  let leftAxes := leftDomain.map fun v => pos a.domain v
  let rightAxes := rightDomain.map fun v => pos b.domain v
  let leftValues := transposeFlat (shapeOf a.domain) leftAxes a.values 0
  let rightValues := transposeFlat (shapeOf b.domain) rightAxes b.values 0
  let ld := prodNat (shapeOf rightOnly)
  let rm := prodNat (shapeOf rightDomain)
  (List.range (size newDomain)).map fun i =>
    leftValues.getD (i / ld) 0 * rightValues.getD (i % rm) 0

/-- Models `bayesian.Table.__mul__`: the product table over
`left_only ++ intersection ++ right_only`, built from the raw products and
renormalized by the constructor with normalization
`a.normalization * b.normalization`. -/
def Table.mul (a b : Table) : Except Err Table :=
  let (leftOnly, interL, rightOnly) := mulParts a b
  mkTable (leftOnly ++ interL ++ rightOnly) (mulRaw a b)
    (a.normalization * b.normalization)

/-- `np.allclose(xs, ys, atol=1e-5)` on equal-length flat arrays, with
NumPy's default relative tolerance `rtol=1e-5`. -/
def allClose (xs ys : List ℚ) : Bool :=
  decide (xs.length = ys.length) &&
    (List.zip xs ys).all fun p =>
      decide (|p.1 - p.2| ≤ 1 / 100000 + 1 / 100000 * |p.2|)

/-- Models `tables.Probability.eq`: set-equal domains, normalizations within
`1e-5`, and values compared after gathering through
`map(self.domain, other.domain)`. -/
def Probability.eq (t u : Table) : Bool :=
  if !domainSetEq t.domain u.domain then false
  else if decide (|t.normalization - u.normalization| > 1 / 100000) then false
  else allClose ((map t.domain u.domain).map fun j => t.values.getD j 0) u.values

/-- Models the `tables.Probability.values` setter: reject a size mismatch,
reject all-zero values, otherwise store `values / z` and set the
normalization to `z`. -/
def Probability.setValues (t : Table) (newValues : List ℚ) : Except Err Table := do
  if newValues.length ≠ size t.domain then throw .sizeMismatch
  let z := newValues.sum
  if z = 0 then throw .zeroValues
  return { t with values := newValues.map (· / z), normalization := z }

/-- Models `tables.Probability.__init__` with explicit values: the field
defaults are installed and the `values` setter runs. -/
def mkProbability (domain : List Variable) (values : List ℚ) : Except Err Table :=
  Probability.setValues { domain := domain, values := [], normalization := 1 } values

/-- Models `tables.Product.__init__`: the result domain is
`left.domain * right.domain` and the two gather maps are precomputed with
`bayesian.map`. -/
structure Product where
  left : Table
  right : Table

/-- The domain of a `tables.Product`. -/
def Product.domain (p : Product) : List Variable := domMul p.left.domain p.right.domain

/-- The cached `left_map` of a `tables.Product`. -/
def Product.leftMap (p : Product) : List Nat := map p.left.domain p.domain

/-- The cached `right_map` of a `tables.Product`. -/
def Product.rightMap (p : Product) : List Nat := map p.right.domain p.domain

/-- The raw gathered products written by `tables.Product.update` before
renormalization: `left.values.flat[left_map] * right.values.flat[right_map]`. -/
def Product.raw (p : Product) : List ℚ :=
  List.zipWith (fun i j => p.left.values.getD i 0 * p.right.values.getD j 0)
    p.leftMap p.rightMap

/-- Models `tables.Product.update` (same arithmetic as
`_junction.Product.update`): gather the raw products, divide by their sum
`z` and set the normalization to
`left.normalization * right.normalization * z`. -/
def Product.update (p : Product) : Table :=
  let raw := p.raw
  let z := raw.sum
  { domain := p.domain
    values := raw.map (· / z)
    normalization := p.left.normalization * p.right.normalization * z }

/-! ## The naive variable-elimination engine (`bayesian.Network`) -/

/-- A network is its list of tables (`Network._tables`). -/
abbrev Network := List Table

/-- Models `Network.domain`: the union of the table domains.  Python builds
`list(set(...))` whose iteration order is implementation defined; the model
fixes first-occurrence order. -/
def networkDomain (net : Network) : List Variable :=
  firstDedup [] (net.flatMap Table.domain)

/-- Models `Network.get_tables(variables)`: the tables whose domain meets
the given variables, in the nested-loop order of the source, without
repetition. -/
def getTables (net : Network) (vars : List Variable) : List Table :=
  vars.foldl
    (fun acc v =>
      net.foldl
        (fun acc t =>
          if decide (v ∈ t.domain) && !(acc.any fun u => decide (u = t)) then acc ++ [t]
          else acc)
        acc)
    []

/-- Models `Network.marginalize(variable)`: multiply every table containing
the variable, marginalize it out of the product, and replace those tables
with the result.  `functools.reduce` on an empty list raises. -/
def Network.marginalize (net : Network) (v : Variable) : Except Err Network := do
  let tables := net.filter fun t => decide (v ∈ t.domain)
  match tables with
  | [] => throw .emptyProduct
  | t0 :: rest =>
      let prod ← rest.foldlM Table.mul t0
      let newTable ← prod.marginalize v
      return (net.filter fun t => decide (v ∉ t.domain)) ++ [newTable]

/-- Models `Network.marginal(variable)`: marginalize every other variable
of the (initially computed) domain, then multiply the remaining tables. -/
def Network.marginal (net : Network) (v : Variable) : Except Err Table := do
  let dom := networkDomain net
  let reduced ← dom.foldlM
    (fun acc w => if decide (w = v) then pure acc else Network.marginalize acc w) net
  match reduced with
  | [] => throw .emptyProduct
  | t0 :: rest => rest.foldlM Table.mul t0

/-! ## The domain graph (`bayesian._domain.DomainGraph`) -/

/-- The domain graph: variables as nodes, an undirected edge between every
pair of variables co-occurring in some table's domain.  Python stores nodes
and links in `set`s; the model uses lists in first-insertion order. -/
structure Graph where
  nodes : List Variable
  edges : List (Variable × Variable)
deriving DecidableEq

/-- Whether two variables are linked (edges are undirected). -/
def Graph.linked (g : Graph) (u v : Variable) : Bool :=
  decide ((u, v) ∈ g.edges) || decide ((v, u) ∈ g.edges)

/-- The neighbors of a variable (`Node.links`), in node order. -/
def Graph.neighbors (g : Graph) (v : Variable) : List Variable :=
  g.nodes.filter fun w => decide (w ≠ v) && g.linked v w

/-- All unordered pairs of a list (`itertools.combinations(l, 2)`). -/
def combos : List α → List (α × α)
  | [] => []
  | x :: rest => (rest.map fun y => (x, y)) ++ combos rest

/-- Models `Node.is_simplicial`: every pair of neighbors is linked. -/
def Graph.isSimplicial (g : Graph) (v : Variable) : Bool :=
  (combos (g.neighbors v)).all fun p => g.linked p.1 p.2

/-- Models `Node.is_isolated`. -/
def Graph.isIsolated (g : Graph) (v : Variable) : Bool :=
  (g.neighbors v).isEmpty

/-- Models `DomainGraph.simplicial_node`: the first simplicial node. -/
def Graph.simplicialNode (g : Graph) : Option Variable :=
  g.nodes.find? fun v => g.isSimplicial v

/-- Models `DomainGraph.isolated_node`: the first isolated node. -/
def Graph.isolatedNode (g : Graph) : Option Variable :=
  g.nodes.find? fun v => g.isIsolated v

/-- Models `DomainGraph.get_minimal_family`: the first node whose family
(neighbors plus itself) is strictly smallest. -/
def Graph.minimalFamily (g : Graph) : Option Variable :=
  match g.nodes with
  | [] => none
  | n0 :: _ =>
      some (g.nodes.foldl
        (fun sel n =>
          if (g.neighbors n).length + 1 < (g.neighbors sel).length + 1 then n else sel)
        n0)

/-- Models `Node.make_simplicial`: add the missing links between the
neighbors of a node. -/
def Graph.makeSimplicial (g : Graph) (v : Variable) : Graph :=
  { g with
    edges := g.edges ++
      (combos (g.neighbors v)).filter fun p => !g.linked p.1 p.2 }

/-- Models `DomainGraph.remove_node`: drop the node and every incident
edge. -/
def Graph.removeNode (g : Graph) (v : Variable) : Graph :=
  { nodes := g.nodes.filter fun w => decide (w ≠ v)
    edges := g.edges.filter fun e => decide (e.1 ≠ v) && decide (e.2 ≠ v) }

/-- The family of a node (`Node.family`), as a list: neighbors then the
node itself. -/
def Graph.family (g : Graph) (v : Variable) : List Variable :=
  g.neighbors v ++ [v]

/-- Models `DomainGraph._build_from_network`: one node per domain variable,
one edge per co-occurring pair. -/
def buildGraph (net : Network) : Graph :=
  { nodes := networkDomain net
    edges := net.flatMap fun t => combos t.domain }

/-! ## The junction tree (`bayesian._junction.JunctionTree`) -/

/-- A bucket (clique) of the junction tree (`_junction.Bucket`).  `out` and
`separators` are indices into the tree's separator list. -/
structure Bucket where
  vars : List Variable
  out : Option Nat
  separators : List Nat
  tables : List Table
  index : Int
deriving DecidableEq

/-- A separator of the junction tree (`_junction.Separator`); messages are
kept outside, in the phase functions. -/
structure SepRec where
  vars : List Variable
  index : Nat
deriving DecidableEq

/-- The compiled junction tree. -/
structure JT where
  buckets : List Bucket
  separators : List SepRec
  subgraphVariables : List Variable
deriving DecidableEq

/-- The mutable state threaded through `_build_from_graph`. -/
structure BState where
  buckets : List Bucket
  seps : List SepRec
  subgraphVariables : List Variable
  used : List Table
  nbRemoved : Nat
deriving DecidableEq

/-- The tables of the network mentioning the given variables that have not
been assigned to a bucket yet (`set(possible_tables) - used_tables`,
modelled in `get_tables` order). -/
def freshTables (net : Network) (used : List Table) (vars : List Variable) : List Table :=
  (getTables net vars).filter fun t => !(used.any fun u => decide (u = t))

/-- The isolated-node extraction loop at the top of
`JunctionTree._build_from_graph`: every isolated node becomes a singleton
bucket owning the unassigned tables that mention it, and is recorded as a
subgraph root. -/
def isolatedLoop (net : Network) : Nat → Graph → BState → Graph × BState
  | 0, g, st => (g, st)
  | fuel + 1, g, st =>
      match g.isolatedNode with
      | none => (g, st)
      | some v =>
          let tables := freshTables net st.used [v]
          let bucket : Bucket :=
            { vars := [v], out := none, separators := [], tables := tables, index := -1 }
          isolatedLoop net fuel (g.removeNode v)
            { st with
              buckets := st.buckets ++ [bucket]
              subgraphVariables := st.subgraphVariables ++ [v]
              used := st.used ++ tables }

/-- The elimination loop of `JunctionTree._build_from_graph`.  `origCount`
is the node count of the original (unreduced) domain graph, used as the
index of the final bucket. -/
def elimLoop (net : Network) (origCount : Nat) : Nat → Graph → BState → Except Err BState
  | 0, _, _ => throw .noneError
  | fuel + 1, g, st => do
      let (g, s) ←
        match g.simplicialNode with
        | some s => pure (g, s)
        | none =>
            match g.minimalFamily with
            | none => throw .noneError
            | some s => pure (g.makeSimplicial s, s)
      let family := g.family s
      if family.length < g.nodes.length then
        let toRemove := family.filter fun n => (g.family n).all fun w => decide (w ∈ family)
        let toKeep := family.filter fun n => !((g.family n).all fun w => decide (w ∈ family))
        let nbRemoved := st.nbRemoved + toRemove.length
        let g2 := toRemove.foldl Graph.removeNode g
        let tables := freshTables net st.used toRemove
        if toKeep.length > 0 then
          let sep : SepRec := { vars := toKeep, index := nbRemoved }
          let bucket : Bucket :=
            { vars := family, out := some st.seps.length, separators := []
              tables := tables, index := (nbRemoved : Int) }
          elimLoop net origCount fuel g2
            { st with
              buckets := st.buckets ++ [bucket]
              seps := st.seps ++ [sep]
              used := st.used ++ tables
              nbRemoved := nbRemoved }
        else
          let bucket : Bucket :=
            { vars := family, out := none, separators := []
              tables := tables, index := (nbRemoved : Int) }
          elimLoop net origCount fuel g2
            { st with
              buckets := st.buckets ++ [bucket]
              subgraphVariables := st.subgraphVariables ++ [family.headD va]
              used := st.used ++ tables
              nbRemoved := nbRemoved }
      else
        let tables := freshTables net st.used family
        let bucket : Bucket :=
          { vars := family, out := none, separators := []
            tables := tables, index := (origCount : Int) }
        pure
          { st with
            buckets := st.buckets ++ [bucket]
            subgraphVariables := st.subgraphVariables ++ [family.headD va]
            used := st.used ++ tables }

/-- The separator-linking pass at the bottom of `_build_from_graph`: each
separator attaches below the first bucket with a larger index containing
all its variables. -/
def linkSeparators (buckets : List Bucket) (seps : List SepRec) : List Bucket :=
  (List.range seps.length).foldl
    (fun bs k =>
      let sep := seps.getD k { vars := [], index := 0 }
      match bs.findIdx? fun b =>
          decide ((sep.index : Int) < b.index) &&
            (sep.vars.all fun v => decide (v ∈ b.vars)) with
      | none => bs
      | some j =>
          bs.set j
            (let b := bs.getD j { vars := [], out := none, separators := []
                                  tables := [], index := 0 }
             { b with separators := b.separators ++ [k] }))
    buckets

/-- Models `JunctionTree.__init__` up to (not including) `fill`: build the
domain graph, extract isolated nodes, run the elimination loop, link the
separators. -/
def compileJT (net : Network) : Except Err JT := do
  let g := buildGraph net
  let (g2, st1) :=
    isolatedLoop net (g.nodes.length + 1) g
      { buckets := [], seps := [], subgraphVariables := [], used := [], nbRemoved := 0 }
  let st2 ← elimLoop net g.nodes.length (g2.nodes.length + 1) g2 st1
  return { buckets := linkSeparators st2.buckets st2.seps
           separators := st2.seps
           subgraphVariables := st2.subgraphVariables }

/-- Multiply a nonempty list of tables left-to-right
(`functools.reduce(operator.mul, tables)`); raises on an empty list. -/
def reduceMul (tables : List Table) : Except Err Table :=
  match tables with
  | [] => throw .emptyProduct
  | t0 :: rest => rest.foldlM Table.mul t0

/-- Marginalize out of `t` every variable of its (snapshot) domain that is
not among `keep` — the inner loops of collect/distribute. -/
def marginalizeDown (t : Table) (keep : List Variable) : Except Err Table :=
  t.domain.foldlM
    (fun acc v => if decide (v ∈ keep) then pure acc else acc.marginalize v) t

/-- Models `JunctionTree._collect_evidence`: walk the buckets in creation
order; every bucket with an outgoing separator multiplies its tables with
the upbound messages of the separators below it and marginalizes the
product down to the outgoing separator.  Returns the upbound message of
every separator. -/
def collectPhase (jt : JT) : Except Err (List (Option Table)) :=
  jt.buckets.foldlM
    (fun ub bucket => do
      match bucket.out with
      | none => pure ub
      | some sIdx => do
          let msgs ← bucket.separators.mapM fun k =>
            match ub.getD k none with
            | some t => pure t
            | none => throw Err.noneError
          let prod ← reduceMul (bucket.tables ++ msgs)
          match jt.separators[sIdx]? |>.map SepRec.vars with
          | some keep => do
              let msg ← marginalizeDown prod keep
              pure (ub.set sIdx (some msg))
          | none => throw Err.noneError)
    (List.replicate jt.separators.length none)

/-- Models `JunctionTree._distribute_evidence`: walk the buckets in reverse
order; each bucket sends to every separator below it the product of its
tables, its incoming downbound message and the upbound messages of the
other separators below it, marginalized down to that separator.  Returns
the downbound message of every separator. -/
def distributePhase (jt : JT) (ub : List (Option Table)) :
    Except Err (List (Option Table)) :=
  jt.buckets.reverse.foldlM
    (fun db bucket => do
      let bucketTables ←
        match bucket.out with
        | none => pure bucket.tables
        | some sIdx =>
            match db.getD sIdx none with
            | some t => pure (bucket.tables ++ [t])
            | none => throw Err.noneError
      bucket.separators.foldlM
        (fun db2 k => do
          let others := bucket.separators.filter fun j => decide (j ≠ k)
          let msgs ← others.mapM fun j =>
            match ub.getD j none with
            | some t => pure t
            | none => throw Err.noneError
          let prod ← reduceMul (bucketTables ++ msgs)
          match jt.separators[k]? |>.map SepRec.vars with
          | some keep => do
              let msg ← marginalizeDown prod keep
              pure (db2.set k (some msg))
          | none => throw Err.noneError)
        db)
    (List.replicate jt.separators.length none)

/-- A variable certainly absent from the concrete runs below, standing for
Python's unbound-name behavior when a marginal's domain were empty. -/
def phantomVariable : Variable := ⟨1000000, 0⟩

/-- The per-variable extraction of `JunctionTree.marginals` before the
normalization adjustment: for each network variable, the first bucket
containing it multiplies its tables with its incoming downbound and the
upbound messages from below, and every other bucket variable is
marginalized out. -/
def marginalsPre (net : Network) (jt : JT) (ub db : List (Option Table)) :
    Except Err (List Table) :=
  (networkDomain net).mapM fun v => do
    let bucket ←
      match jt.buckets.find? fun b => decide (v ∈ b.vars) with
      | some b => pure b
      | none =>
          match jt.buckets.getLast? with
          | some b => pure b
          | none => throw Err.noneError
    let tables1 ←
      match bucket.out with
      | none => pure bucket.tables
      | some sIdx =>
          match db.getD sIdx none with
          | some t => pure (bucket.tables ++ [t])
          | none => throw Err.noneError
    let msgs ← bucket.separators.mapM fun j =>
      match ub.getD j none with
      | some t => pure t
      | none => throw Err.noneError
    let tables := tables1 ++ msgs
    let newTable ←
      match tables with
      | [t] => mkTable t.domain t.values t.normalization
      | _ => reduceMul tables
    bucket.vars.foldlM
      (fun acc w => if decide (w = v) then pure acc else acc.marginalize w) newTable

/-- The global normalization of `JunctionTree.marginals`: the product of
the normalizations of the marginals whose first domain variable is a
recorded subgraph root. -/
def globalZ (jt : JT) (pre : List Table) : ℚ :=
  (pre.filter fun m => decide (m.domain.headD phantomVariable ∈ jt.subgraphVariables)).foldl
    (fun acc m => acc * m.normalization) 1

/-- The tail of `JunctionTree.marginals`: compute the global normalization
and install it on every marginal. -/
def marginalsRun (net : Network) (jt : JT) (ub db : List (Option Table)) :
    Except Err (List Table × ℚ) := do
  let pre ← marginalsPre net jt ub db
  let z := globalZ jt pre
  return (pre.map fun m => { m with normalization := z }, z)

/-- The full junction-tree pipeline: `JunctionTree(network)` followed by
`marginals()` — compile, fill (collect then distribute), extract. -/
def junctionMarginals (net : Network) : Except Err (List Table × ℚ) := do
  let jt ← compileJT net
  let ub ← collectPhase jt
  let db ← distributePhase jt ub
  marginalsRun net jt ub db

/-- `true` iff the junction-tree pipeline succeeds on the network. -/
def junctionOk (net : Network) : Bool :=
  match junctionMarginals net with
  | .ok _ => true
  | .error _ => false

/-! ## The assignment-preserving index translation -/

/-- The assignment-preserving flat-index translation from a domain to a
list of its variables: read each variable's coordinate out of the
unraveled full index and ravel over the sub-domain's shape.  This is the
map the specification describes; `Bayesian.map` is the library's attempt
at computing it. -/
def semMap (full sub : List Variable) (i : Nat) : Nat :=
  ravel (shapeOf sub) (sub.map fun v => (unravel (shapeOf full) i).getD (pos full v) 0)

/-- Comparison of two value lists within an absolute tolerance of `1e-8`. -/
def withinTol (xs ys : List ℚ) : Bool :=
  decide (xs.length = ys.length) &&
    (List.zip xs ys).all fun p => decide (|p.1 - p.2| ≤ 1 / 100000000)

/-- The equality check of the junction-tree marginals against the naive
`Network.marginal` marginals: both engines must succeed, and for every
network variable (in domain order) the two marginals must have set-equal
domains, values within `1e-8` and normalizations within `1e-8`. -/
def marginalsMatch (net : Network) : Bool :=
  match junctionMarginals net, (networkDomain net).mapM (Network.marginal net) with
  | .ok (ms, _), .ok naive =>
      decide (ms.length = naive.length) &&
        (List.zip ms naive).all fun p =>
          domainSetEq p.1.domain p.2.domain &&
            withinTol p.1.values p.2.values &&
            decide (|p.1.normalization - p.2.normalization| ≤ 1 / 100000000)
  | _, _ => false

/-! ## Concrete networks -/

/-- Build a table from raw values, defaulting to the uniform table on
failure (never exercised below: every concrete construction succeeds). -/
def tbl (dom : List Variable) (values : List ℚ) : Table :=
  match mkTable dom values 1 with
  | .ok t => t
  | .error _ => { domain := dom, values := values, normalization := 1 }

/-- The `Pyramid` test network (`bayesian/tests/networks.py`): six binary
variables `A,B,C,D,E,F`, five conditional tables, one prior and a likelihood
evidence table on `F`. -/
def pyA : Variable := ⟨10, 2⟩

def pyB : Variable := ⟨11, 2⟩

def pyC : Variable := ⟨12, 2⟩

def pyD : Variable := ⟨13, 2⟩

def pyE : Variable := ⟨14, 2⟩

def pyF : Variable := ⟨15, 2⟩

/-- The pyramid network's table list, in `add_table` order. -/
def pyramidNetwork : Network :=
  [tbl [pyA] [55/100, 45/100],
   tbl [pyA, pyB] [1/10, 9/10, 9/10, 1/10],
   tbl [pyA, pyC] [25/100, 75/100, 35/100, 65/100],
   tbl [pyB, pyD] [40/100, 60/100, 65/100, 35/100],
   tbl [pyC, pyF] [99/100, 1/100, 3/100, 97/100],
   tbl [pyB, pyC, pyE] [54/100, 46/100, 37/100, 63/100, 11/100, 89/100, 27/100, 73/100],
   tbl [pyF] [100, 15]]

/-- Variables of the `CarStartProblem` network (Jensen & Nielsen 2007,
p. 35): `Fu`, `Fm` (three states), `St`, `Sp`. -/
def csFu : Variable := ⟨20, 2⟩

def csFm : Variable := ⟨21, 3⟩

def csSt : Variable := ⟨22, 2⟩

def csSp : Variable := ⟨23, 2⟩

/-- The car-start network's table list, in `add_table` order. -/
def carStartNetwork : Network :=
  [tbl [csFu] [2/100, 98/100],
   tbl [csSp] [4/100, 96/100],
   tbl [csFu, csFm] [998/1000, 1/1000, 1/1000, 1/100, 60/100, 39/100],
   tbl [csSt, csFu, csSp] [1, 1, 99/100, 1/100, 0, 0, 1/100, 99/100]]

/-- A network with one connected pair and one isolated variable:
`T(a,b)` and `T(d)`.  `JunctionTree.marginals` succeeds on it while
`Network.marginal` raises. -/
def mixedNetwork : Network :=
  [tbl [va, vb] [1/10, 2/10, 3/10, 4/10],
   tbl [vd] [3/10, 7/10]]

/-- Left factor of the commutativity counterexample: domain `(a, i)`. -/
def ceI : Variable := ⟨30, 2⟩

def ceR1 : Variable := ⟨31, 2⟩

def ceR2 : Variable := ⟨32, 2⟩

/-- `A` of the `A ⊗ B ≡ B ⊗ A` counterexample. -/
def ceA : Table := tbl [va, ceI] [1/10, 2/10, 3/10, 4/10]

/-- `B` of the `A ⊗ B ≡ B ⊗ A` counterexample: three variables, two of
them outside `A`, so that the two product domains differ by a
non-involutive permutation. -/
def ceB : Table := tbl [ceI, ceR1, ceR2] [1/36, 2/36, 3/36, 4/36, 5/36, 6/36, 7/36, 8/36]

/-- Extract a successful table result, defaulting on error.  The default is
never exercised in the concrete runs below. -/
def okD (e : Except Err Table) (d : Table) : Table :=
  match e with
  | .ok t => t
  | .error _ => d

/-- The concrete product `A ⊗ B` of the commutativity counterexample. -/
def ceAB : Table := okD (Table.mul ceA ceB) ceA

/-- The concrete product `B ⊗ A` of the commutativity counterexample. -/
def ceBA : Table := okD (Table.mul ceB ceA) ceA

/-- A concrete normalized table over `(a, b)` for witnesses. -/
def c3T : Table := tbl [va, vb] [1/10, 2/10, 3/10, 4/10]

/-- A concrete `tables.Product` for witnesses. -/
def c4P : Product := { left := tbl [va] [1/4, 3/4], right := tbl [va, vb] [1/8, 3/8, 1/4, 1/4] }

/-- The compiled junction tree of `mixedNetwork`. -/
def jtN0 : JT :=
  match compileJT mixedNetwork with
  | .ok jt => jt
  | .error _ => { buckets := [], separators := [], subgraphVariables := [] }

/-- The collect-phase messages of `mixedNetwork`. -/
def ubN0 : List (Option Table) :=
  match collectPhase jtN0 with
  | .ok u => u
  | .error _ => []

/-- The distribute-phase messages of `mixedNetwork`. -/
def dbN0 : List (Option Table) :=
  match distributePhase jtN0 ubN0 with
  | .ok u => u
  | .error _ => []

/-- The pre-adjustment marginals of `mixedNetwork`. -/
def preN0 : List Table :=
  match marginalsPre mixedNetwork jtN0 ubN0 dbN0 with
  | .ok p => p
  | .error _ => []

/-- The body of one elimination step of `_build_from_graph`, after the
simplicial/minimal-family node `s` has been selected (and the graph made
simplicial at `s` if needed): written out separately so its equation with
`elimLoop` can be stated per selection case. -/
def elimBody (net : Network) (origCount fuel : Nat) (g : Graph) (s : Variable)
    (st : BState) : Except Err BState :=
  let family := g.family s
  if family.length < g.nodes.length then
    let toRemove := family.filter fun n => (g.family n).all fun w => decide (w ∈ family)
    let toKeep := family.filter fun n => !((g.family n).all fun w => decide (w ∈ family))
    let nbRemoved := st.nbRemoved + toRemove.length
    let g2 := toRemove.foldl Graph.removeNode g
    let tables := freshTables net st.used toRemove
    if toKeep.length > 0 then
      let sep : SepRec := { vars := toKeep, index := nbRemoved }
      let bucket : Bucket :=
        { vars := family, out := some st.seps.length, separators := []
          tables := tables, index := (nbRemoved : Int) }
      elimLoop net origCount fuel g2
        { st with
          buckets := st.buckets ++ [bucket]
          seps := st.seps ++ [sep]
          used := st.used ++ tables
          nbRemoved := nbRemoved }
    else
      let bucket : Bucket :=
        { vars := family, out := none, separators := []
          tables := tables, index := (nbRemoved : Int) }
      elimLoop net origCount fuel g2
        { st with
          buckets := st.buckets ++ [bucket]
          subgraphVariables := st.subgraphVariables ++ [family.headD va]
          used := st.used ++ tables
          nbRemoved := nbRemoved }
  else
    let tables := freshTables net st.used family
    let bucket : Bucket :=
      { vars := family, out := none, separators := []
        tables := tables, index := (origCount : Int) }
    pure
      { st with
        buckets := st.buckets ++ [bucket]
        subgraphVariables := st.subgraphVariables ++ [family.headD va]
        used := st.used ++ tables }

/-- The elimination invariant of `_build_from_graph`: graph nodes are
duplicate-free; every network table is in exactly one bucket iff it has
been used; buckets cover the domains of their tables; and every unassigned
table has all its variables still in the graph, pairwise linked. -/
def Inv (net : Network) (g : Graph) (st : BState) : Prop :=
  g.nodes.Nodup ∧
  (∀ t ∈ net, (st.buckets.countP fun b => decide (t ∈ b.tables)) =
    if t ∈ st.used then 1 else 0) ∧
  (∀ b ∈ st.buckets, ∀ t ∈ b.tables, ∀ v ∈ t.domain, v ∈ b.vars) ∧
  (∀ t ∈ net, t ∉ st.used →
    (∀ v ∈ t.domain, v ∈ g.nodes) ∧
    ∀ u ∈ t.domain, ∀ w ∈ t.domain, u ≠ w → g.linked u w = true)

/-- The bucket property claimed by C7: every network table sits in exactly
one bucket, and each bucket covers the domains of its tables. -/
def BPost (net : Network) (st : BState) : Prop :=
  (∀ t ∈ net, (st.buckets.countP fun b => decide (t ∈ b.tables)) = 1) ∧
  (∀ b ∈ st.buckets, ∀ t ∈ b.tables, ∀ v ∈ t.domain, v ∈ b.vars)

/-- The variables/tables view of a bucket — the fields `fill` (separator
linking) leaves untouched. -/
def bucketVT (b : Bucket) : List Variable × List Table := (b.vars, b.tables)

/-- The union domain `left_only ++ intersection ++ right_only` built by
`Table.__mul__`, written out flat (the same list `Table.mul` passes to the
constructor). -/
def mulDomain (a b : Table) : List Variable :=
  (a.domain.filter fun v => decide (v ∉ b.domain)) ++
    (a.domain.filter fun v => decide (v ∈ b.domain)) ++
    (b.domain.filter fun v => decide (v ∉ a.domain))

/-! ## Basic lemmas about shapes and flat indices -/

theorem prodNat_nil : prodNat [] = 1 := rfl

theorem prodNat_cons (s : Nat) (l : List Nat) : prodNat (s :: l) = s * prodNat l := rfl

theorem prodNat_append (l1 l2 : List Nat) :
    prodNat (l1 ++ l2) = prodNat l1 * prodNat l2 := by
  induction l1 with
  | nil => simp [prodNat_nil]
  | cons s rest ih => simp [prodNat_cons, ih, Nat.mul_assoc]

theorem prodNat_pos (l : List Nat) (h : ∀ s ∈ l, 1 ≤ s) : 1 ≤ prodNat l := by
  induction l with
  | nil => exact Nat.le_refl 1
  | cons s rest ih =>
      rw [prodNat_cons]
      exact Nat.one_le_iff_ne_zero.mpr
        (Nat.mul_ne_zero (Nat.one_le_iff_ne_zero.mp (h s (by simp)))
          (Nat.one_le_iff_ne_zero.mp (ih fun x hx => h x (by simp [hx]))))

theorem unravel_length (shape : List Nat) (i : Nat) :
    (unravel shape i).length = shape.length := by
  induction shape generalizing i with
  | nil => rfl
  | cons s rest ih => simp [unravel, ih]

theorem ravel_unravel (shape : List Nat) (i : Nat) (h : i < prodNat shape) :
    ravel shape (unravel shape i) = i := by
  induction shape generalizing i with
  | nil =>
      rw [prodNat_nil] at h
      simp [unravel, ravel, Nat.lt_one_iff.mp h]
  | cons s rest ih =>
      rw [prodNat_cons] at h
      have hB : 0 < prodNat rest := by
        rcases Nat.eq_zero_or_pos (prodNat rest) with h0 | h0
        · rw [h0, Nat.mul_zero] at h; omega
        · exact h0
      simp only [unravel, ravel]
      rw [ih _ (Nat.mod_lt _ hB)]
      exact Nat.div_add_mod' i (prodNat rest)

theorem unravel_forall2 (shape : List Nat) (i : Nat) (h : i < prodNat shape) :
    List.Forall₂ (· < ·) (unravel shape i) shape := by
  induction shape generalizing i with
  | nil => exact List.Forall₂.nil
  | cons s rest ih =>
      rw [prodNat_cons] at h
      have hB : 0 < prodNat rest := by
        rcases Nat.eq_zero_or_pos (prodNat rest) with h0 | h0
        · rw [h0, Nat.mul_zero] at h; omega
        · exact h0
      refine List.Forall₂.cons ?_ (ih _ (Nat.mod_lt _ hB))
      exact Nat.div_lt_of_lt_mul (by rw [Nat.mul_comm]; exact h)

theorem ravel_lt (shape idx : List Nat) (h : List.Forall₂ (· < ·) idx shape) :
    ravel shape idx < prodNat shape := by
  induction h with
  | nil => simp [ravel, prodNat_nil]
  | @cons x s idx rest hxs _ ih =>
      rw [prodNat_cons, ravel]
      calc x * prodNat rest + ravel rest idx
          < x * prodNat rest + prodNat rest := by omega
        _ = (x + 1) * prodNat rest := by ring
        _ ≤ s * prodNat rest := Nat.mul_le_mul_right _ (Nat.succ_le_of_lt hxs)

theorem unravel_ravel (shape idx : List Nat) (h : List.Forall₂ (· < ·) idx shape) :
    unravel shape (ravel shape idx) = idx := by
  induction h with
  | nil => rfl
  | @cons x s idx rest hxs htail ih =>
      have hlt : ravel rest idx < prodNat rest := ravel_lt rest idx htail
      have hB : 0 < prodNat rest := Nat.lt_of_le_of_lt (Nat.zero_le _) hlt
      have hdiv : (x * prodNat rest + ravel rest idx) / prodNat rest = x := by
        rw [Nat.add_comm, Nat.add_mul_div_right _ _ hB, Nat.div_eq_of_lt hlt,
          Nat.zero_add]
      have hmod : (x * prodNat rest + ravel rest idx) % prodNat rest = ravel rest idx := by
        rw [Nat.add_comm, Nat.add_mul_mod_self_right, Nat.mod_eq_of_lt hlt]
      simp only [unravel, ravel]
      rw [hdiv, hmod, ih]

theorem list_sum_getD (l : List ℚ) :
    l.sum = ∑ i ∈ Finset.range l.length, l.getD i 0 := by
  induction l with
  | nil => simp
  | cons x rest ih =>
      rw [List.sum_cons, List.length_cons, Finset.sum_range_succ', ih]
      simp only [List.getD_cons_succ, List.getD_cons_zero]
      ring

theorem sum_map_range (f : Nat → ℚ) (n : Nat) :
    ((List.range n).map f).sum = ∑ i ∈ Finset.range n, f i := by
  induction n with
  | zero => simp
  | succ m ih => rw [List.range_succ, Finset.sum_range_succ, ← ih]; simp

theorem getD_mem_or (l : List α) (i : Nat) (d : α) : l.getD i d ∈ l ∨ l.getD i d = d := by
  by_cases h : i < l.length
  · left; rw [List.getD_eq_getElem l d h]; exact List.getElem_mem h
  · right; exact List.getD_eq_default l d (Nat.le_of_not_lt h)

/-! ## C6: domain equality -/

/-- C6 counterexample: the claim says domains over the same variables in
different orders compare equal, but `Domain` inherits order-dependent tuple
equality, so `(a, b)` and `(b, a)` are unequal domains over the same
variable set. -/
theorem domain_tuple_equality_order_dependent :
    domainEq [va, vb] [vb, va] = false ∧ va ≠ vb ∧
      domainSetEq [va, vb] [vb, va] = true := by decide

/-- C6 (amended): `Domain` equality is order-dependent tuple equality —
two domains are `==`-equal exactly when they list the same variables in
the same order — while the order-independent set comparison appears only
in the domain check of `tables.Probability.eq`, which accepts any
permutation. -/
theorem domain_equality_set_check (d1 d2 : List Variable) (h : d1.Perm d2) :
    domainSetEq d1 d2 = true ∧ (domainEq d1 d2 = true ↔ d1 = d2) := by
  constructor
  · simp only [domainSetEq, Bool.and_eq_true, List.all_eq_true, decide_eq_true_eq]
    exact ⟨fun v hv => h.mem_iff.mp hv, fun v hv => h.mem_iff.mpr hv⟩
  · simp [domainEq]

/-- Witness for `domain_equality_set_check` at the permuted pair
`(a, b)`, `(b, a)`. -/
theorem domain_equality_set_check_witness :
    domainSetEq [va, vb] [vb, va] = true ∧
      (domainEq [va, vb] [vb, va] = true ↔ [va, vb] = [vb, va]) :=
  domain_equality_set_check [va, vb] [vb, va] (by decide)

/-! ## C5: construction from zero-sum values -/

unseal Rat.add Rat.mul Rat.sub Rat.inv in
/-- C5 counterexample: constructing a `bayesian.Table` (`_core.py`) from
values summing to zero raises nothing — the raw values are stored silently
and the normalization is left unchanged. -/
theorem table_zero_values_stored_silently :
    mkTable [va] [0, 0] 1 =
      .ok { domain := [va], values := [0, 0], normalization := 1 } := by decide

/-- C5 (amended): for a valid domain, both constructors normalize when the
raw sum `z` is nonzero — `Table.__init__` (`_core.py`) stores `values / z`
and multiplies the normalization by `z`, and the `tables.Probability`
values setter stores `values / z` and sets the normalization to `z` (its
construction default `1` times `z`) — but when `z = 0` `Table.__init__`
stores the raw values silently and raises nothing; only the
`tables.Probability` values setter rejects zero-sum values (with a
`ValueError`, the `DegenerateFactor` kind). -/
theorem table_construction_zero_sum (dom : List Variable) (values : List ℚ) (norm : ℚ)
    (hne : dom ≠ []) (hnd : dom.Nodup) (hlen : values.length = size dom) :
    (values.sum = 0 →
      mkTable dom values norm =
        .ok { domain := dom, values := values, normalization := norm } ∧
      mkProbability dom values = .error .zeroValues) ∧
    (values.sum ≠ 0 →
      mkTable dom values norm =
        .ok { domain := dom, values := values.map (· / values.sum),
              normalization := norm * values.sum } ∧
      mkProbability dom values =
        .ok { domain := dom, values := values.map (· / values.sum),
              normalization := values.sum }) := by
  have h0 : ¬dom.length = 0 := by simpa [List.length_eq_zero] using hne
  have hd : mkDomain dom = .ok dom := by simp [mkDomain, h0, hnd]
  refine ⟨fun hz => ⟨?_, ?_⟩, fun hz => ⟨?_, ?_⟩⟩
  · simp [mkTable, hd, hz]
  · simp [mkProbability, Probability.setValues, hlen, hz, Except.map, Except.bind, throw,
      throwThe, MonadExceptOf.throw, Functor.map]
  · simp [mkTable, hd, hz]
  · simp [mkProbability, Probability.setValues, hlen, hz, Except.map, Except.bind, throw,
      throwThe, MonadExceptOf.throw, Functor.map, pure, Except.pure]
    rfl

unseal Rat.add Rat.mul Rat.sub Rat.inv in
/-- Witness for `table_construction_zero_sum` at the domain `[b]` and the
zero values `[0, 0]` (and, for the nonzero branch of both constructors,
values `[1, 3]`). -/
theorem table_construction_zero_sum_witness :
    (mkTable [vb] [0, 0] 1 =
        .ok { domain := [vb], values := [0, 0], normalization := 1 } ∧
      mkProbability [vb] [0, 0] = .error .zeroValues) ∧
      mkTable [vb] [1, 3] 1 =
        .ok { domain := [vb], values := [(1 : ℚ) / 4, 3 / 4], normalization := 4 } ∧
      mkProbability [vb] [1, 3] =
        .ok { domain := [vb], values := [(1 : ℚ) / 4, 3 / 4], normalization := 4 } := by
  refine ⟨(table_construction_zero_sum [vb] [0, 0] 1 (by decide) (by decide)
    (by decide)).1 (by decide), ?_, ?_⟩
  · have h := ((table_construction_zero_sum [vb] [1, 3] 1 (by decide) (by decide)
      (by decide)).2 (by decide)).1
    exact h.trans (by decide)
  · have h := ((table_construction_zero_sum [vb] [1, 3] 1 (by decide) (by decide)
      (by decide)).2 (by decide)).2
    exact h.trans (by decide)

/-! ## C1: junction-tree marginals versus naive marginals -/

unseal Rat.add Rat.mul Rat.sub Rat.inv in
/-- C1 counterexample: the claim quantifies over every network, but on
`mixedNetwork` — one table over `(a, b)` plus one isolated table over
`(d)` — the junction-tree engine succeeds while `Network.marginal(a)`
raises (eliminating the isolated variable `d` leaves an empty domain), so
no naive marginal exists for the junction-tree marginal to agree with. -/
theorem junction_succeeds_where_naive_raises :
    va ∈ networkDomain mixedNetwork ∧ junctionOk mixedNetwork = true ∧
      Network.marginal mixedNetwork va = .error .emptyDomain :=
  ⟨by decide, by decide, by decide⟩

set_option maxRecDepth 40000 in
unseal Rat.add Rat.mul Rat.sub Rat.inv in
/-- C1 (amended): on the repository's junction-tree test networks
(`Pyramid` and `CarStartProblem` of `tests/networks.py`, exactly as
`test_junction_junctiontree.py` runs them), every junction-tree marginal
agrees with `Network.marginal(v)` within `1e-8` — set-equal domains,
values within `1e-8` and normalizations within `1e-8`; in general the two
engines are not everywhere comparable, because `Network.marginal` raises
on any network whose domain graph has an isolated variable. -/
theorem junction_matches_naive_on_test_networks :
    marginalsMatch pyramidNetwork = true ∧ marginalsMatch carStartNetwork = true :=
  ⟨by decide, by decide⟩

/-! ## C9: commutativity of the product under table equality -/

set_option maxRecDepth 40000 in
unseal Rat.add Rat.mul Rat.sub Rat.inv in
/-- C9 counterexample: with `A` over `(a, i)` and `B` over `(i, r1, r2)`
(nonzero product sum), the domains of `A ⊗ B` and `B ⊗ A` differ by a
non-involutive permutation; `tables.Probability.eq` gathers through
`map`, which mis-handles such permutations, so it reports the two
products unequal. -/
theorem prob_eq_fails_on_commuted_products :
    Table.mul ceA ceB = .ok ceAB ∧ Table.mul ceB ceA = .ok ceBA ∧
      Probability.eq ceAB ceBA = false ∧ (mulRaw ceA ceB).sum ≠ 0 :=
  ⟨by decide, by decide, by decide, by decide⟩

/-! ## C2: the shared global normalization -/

/-- C2: whenever the per-variable extraction of `JunctionTree.marginals`
succeeds, the returned marginals all carry the same normalization `Z`, and
`Z` is the product of the pre-adjustment normalization constants of the
representative marginals — those whose variable is recorded in
`subgraph_variables` (one per connected subgraph) during compilation. -/
theorem marginals_share_global_normalization (net : Network) (jt : JT)
    (ub db : List (Option Table)) (pre : List Table)
    (h : marginalsPre net jt ub db = .ok pre) :
    marginalsRun net jt ub db =
      .ok (pre.map fun m => { m with normalization := globalZ jt pre }, globalZ jt pre) ∧
    (∀ m ∈ pre.map fun m => { m with normalization := globalZ jt pre },
      m.normalization = globalZ jt pre) ∧
    globalZ jt pre =
      ((pre.filter fun m =>
          decide (m.domain.headD phantomVariable ∈ jt.subgraphVariables)).map
        Table.normalization).prod := by
  refine ⟨?_, ?_, ?_⟩
  · simp [marginalsRun, h]
  · intro m hm
    rw [List.mem_map] at hm
    obtain ⟨m0, _, rfl⟩ := hm
    rfl
  · rw [globalZ, List.prod_eq_foldl, List.foldl_map]

unseal Rat.add Rat.mul Rat.sub Rat.inv in
/-- Witness for `marginals_share_global_normalization` at the compiled
`mixedNetwork` state. -/
theorem marginals_share_global_normalization_witness :
    marginalsRun mixedNetwork jtN0 ubN0 dbN0 =
      .ok (preN0.map fun m => { m with normalization := globalZ jtN0 preN0 },
        globalZ jtN0 preN0) ∧
    (∀ m ∈ preN0.map fun m => { m with normalization := globalZ jtN0 preN0 },
      m.normalization = globalZ jtN0 preN0) ∧
    globalZ jtN0 preN0 =
      ((preN0.filter fun m =>
          decide (m.domain.headD phantomVariable ∈ jtN0.subgraphVariables)).map
        Table.normalization).prod :=
  marginals_share_global_normalization mixedNetwork jtN0 ubN0 dbN0 preN0 (by decide)

/-! ## C8 and C10: properties of the index map -/

theorem findIdx_get_of_nodup {α : Type} [DecidableEq α] (l : List α) (hl : l.Nodup)
    (k : Nat) (hk : k < l.length) :
    (l.findIdx fun w => decide (w = l.get ⟨k, hk⟩)) = k := by
  induction l generalizing k with
  | nil => simp at hk
  | cons x rest ih =>
      cases k with
      | zero => simp [List.findIdx_cons]
      | succ k =>
          have hk2 : k < rest.length := Nat.lt_of_succ_lt_succ hk
          have hx : decide (x = (x :: rest).get ⟨k + 1, hk⟩) = false := by
            apply decide_eq_false
            intro hEq
            apply (List.nodup_cons.mp hl).1
            rw [hEq]
            exact List.get_mem rest k hk2
          rw [List.findIdx_cons, hx]
          simp only [cond_false]
          exact congrArg (· + 1) (ih (List.nodup_cons.mp hl).2 k hk2)

theorem map_getD_range {α : Type} (n : Nat) (l : List α) (d : α) (h : l.length = n) :
    ((List.range n).map fun i => l.getD i d) = l := by
  apply List.ext_get
  · simp [h]
  · intro k h1 h2
    simp only [List.get_eq_getElem, List.getElem_map, List.getElem_range]
    rw [List.getD_eq_getElem l d h2]

theorem nodup_map_findIdx (l : List Variable) (hl : l.Nodup) :
    (l.map fun v => l.findIdx fun w => decide (w = v)) = List.range l.length := by
  apply List.ext_get
  · simp
  · intro k h1 h2
    simp only [List.get_eq_getElem, List.getElem_map, List.getElem_range]
    have := findIdx_get_of_nodup l hl k (by simpa using h1)
    simpa [List.get_eq_getElem] using this

theorem zipWith_mul_ones (shape : List Nat) :
    List.zipWith (· * ·) shape (shape.map fun _ => 1) = shape := by
  induction shape with
  | nil => rfl
  | cons s rest ih => simp only [List.map_cons, List.zipWith_cons_cons, Nat.mul_one, ih]

theorem zipWith_mod_of_forall2 (idx shape : List Nat)
    (h : List.Forall₂ (· < ·) idx shape) :
    List.zipWith (fun x s => x % s) idx shape = idx := by
  induction h with
  | nil => rfl
  | cons hxs _ ih => simp [Nat.mod_eq_of_lt hxs, ih]

theorem transposeFlat_id {α : Type} (shape : List Nat) (flat : List α) (d : α)
    (hlen : flat.length = prodNat shape) :
    transposeFlat shape (List.range shape.length) flat d = flat := by
  unfold transposeFlat
  have houtShape : ((List.range shape.length).map fun k => shape.getD k 1) = shape :=
    map_getD_range _ _ _ rfl
  rw [houtShape]
  apply List.ext_get
  · simp [hlen]
  · intro k h1 h2
    simp only [List.get_eq_getElem, List.getElem_map, List.getElem_range]
    have hk : k < prodNat shape := by simpa using h1
    have hperm : permuteIdx (List.range shape.length) (unravel shape k) = unravel shape k := by
      unfold permuteIdx
      rw [List.length_range]
      apply List.ext_get
      · simp [unravel_length]
      · intro m hm1 hm2
        simp only [List.get_eq_getElem, List.getElem_map, List.getElem_range]
        have hmn : m < shape.length := by simpa using hm1
        have hf : ((List.range shape.length).findIdx fun j => decide (j = m)) = m := by
          have := findIdx_get_of_nodup (List.range shape.length) (List.nodup_range _)
            m (by simpa using hmn)
          simpa [List.get_eq_getElem] using this
        rw [hf, List.getD_eq_getElem _ 0 (by simpa [unravel_length] using hmn)]
    rw [hperm, ravel_unravel shape k hk, List.getD_eq_getElem flat d h2]

theorem tileFlat_ones {α : Type} (shape : List Nat) (flat : List α) (d : α)
    (hlen : flat.length = prodNat shape) :
    tileFlat shape (shape.map fun _ => 1) flat d = flat := by
  unfold tileFlat
  rw [zipWith_mul_ones]
  apply List.ext_get
  · simp [hlen]
  · intro k h1 h2
    simp only [List.get_eq_getElem, List.getElem_map, List.getElem_range]
    have hk : k < prodNat shape := by simpa using h1
    rw [zipWith_mod_of_forall2 _ _ (unravel_forall2 shape k hk),
      ravel_unravel shape k hk, List.getD_eq_getElem flat d h2]

/-- C8: for every duplicate-free domain `D`, `map(D, D)` is the identity
permutation `[0, 1, ..., D.size - 1]`. -/
theorem map_self_identity (D : List Variable) (h : D.Nodup) :
    map D D = List.range (size D) := by
  unfold map
  have h1 : D.filter (fun v => decide (v ∈ D)) = D :=
    List.filter_eq_self.mpr fun a ha => by simpa using ha
  have h2 := nodup_map_findIdx D h
  have h3 : (D.map fun v => if v ∈ D then v.nbStates else 1) = shapeOf D := by
    rw [shapeOf]
    exact List.map_congr_left fun v hv => if_pos hv
  have h4 : (D.map fun v => if v ∈ D then 1 else v.nbStates) = (shapeOf D).map fun _ => 1 := by
    rw [shapeOf, List.map_map]
    exact List.map_congr_left fun v hv => if_pos hv
  have h6 : List.range D.length = List.range (shapeOf D).length := by simp [shapeOf]
  simp only [h1, h2, h3, h4, h6]
  rw [transposeFlat_id _ _ _ (by simp [size])]
  exact tileFlat_ones (shapeOf D) _ _ (by simp [size])

/-- Witness for `map_self_identity`: the concrete instance
`map((a,b), (a,b)) = [0, 1, 2, 3]` named by the claim. -/
theorem map_self_identity_witness : map [va, vb] [va, vb] = [0, 1, 2, 3] :=
  (map_self_identity [va, vb] (by decide)).trans (by decide)

theorem transposeFlat_mem {α : Type} (shape axes : List Nat) (flat : List α) (d : α) :
    ∀ x ∈ transposeFlat shape axes flat d, x ∈ flat ∨ x = d := by
  intro x hx
  unfold transposeFlat at hx
  rw [List.mem_map] at hx
  obtain ⟨i, _, rfl⟩ := hx
  exact getD_mem_or _ _ _

theorem tileFlat_mem {α : Type} (base reps : List Nat) (flat : List α) (d : α) :
    ∀ x ∈ tileFlat base reps flat d, x ∈ flat ∨ x = d := by
  intro x hx
  unfold tileFlat at hx
  rw [List.mem_map] at hx
  obtain ⟨i, _, rfl⟩ := hx
  exact getD_mem_or _ _ _

/-- C10: when every variable of `sub` occurs in `full` (and every variable
has at least one state), every entry of `map(sub, full)` lies in
`[0, sub.size)`; in particular, every gather `values.flat[map_sub[i]]`
performed by a product over a value array of length `sub.size` stays in
bounds. -/
theorem map_entries_in_bounds (sub full : List Variable)
    (hsub : ∀ v ∈ sub, v ∈ full) (hpos : ∀ v ∈ sub, 1 ≤ v.nbStates) :
    (∀ x ∈ map sub full, x < size sub) ∧
      ∀ values : List ℚ, values.length = size sub →
        ∀ i : Nat, (map sub full).getD i 0 < values.length := by
  have hszpos : 1 ≤ size sub := by
    apply prodNat_pos
    intro s hs
    rw [shapeOf, List.mem_map] at hs
    obtain ⟨v, hv, rfl⟩ := hs
    exact hpos v hv
  have hmain : ∀ x ∈ map sub full, x < size sub := by
    intro x hx
    unfold map at hx
    rcases tileFlat_mem _ _ _ _ x hx with h | h
    · rcases transposeFlat_mem _ _ _ _ x h with h2 | h2
      · exact List.mem_range.mp h2
      · omega
    · omega
  refine ⟨hmain, fun values hv i => ?_⟩
  rw [hv]
  rcases getD_mem_or (map sub full) i 0 with h | h
  · exact hmain _ h
  · omega

/-- Witness for `map_entries_in_bounds` at `sub = [a]`, `full = [a, b]`. -/
theorem map_entries_in_bounds_witness :
    (∀ x ∈ map [va] [va, vb], x < size [va]) ∧
      ∀ values : List ℚ, values.length = size [va] →
        ∀ i : Nat, (map [va] [va, vb]).getD i 0 < values.length :=
  map_entries_in_bounds [va] [va, vb] (by decide) (by decide)

/-! ## C3: marginalization preserves normalization -/

theorem getD_insertIdx_self {α : Type} (k : Nat) (t : α) (xs : List α) (d : α)
    (hk : k ≤ xs.length) :
    (xs.insertIdx k t).getD k d = t := by
  induction xs generalizing k with
  | nil =>
      cases k with
      | zero => rfl
      | succ k => simp at hk
  | cons x rest ih =>
      cases k with
      | zero => rfl
      | succ k => exact ih k (Nat.le_of_succ_le_succ hk)

theorem insertIdx_getD_eraseIdx {α : Type} (k : Nat) (ys : List α) (d : α)
    (hk : k < ys.length) :
    (ys.eraseIdx k).insertIdx k (ys.getD k d) = ys := by
  induction ys generalizing k with
  | nil => simp at hk
  | cons y rest ih =>
      cases k with
      | zero => rfl
      | succ k =>
          simp only [List.eraseIdx_cons_succ, List.getD_cons_succ, List.insertIdx_succ_cons]
          rw [ih k (Nat.lt_of_succ_lt_succ hk)]

theorem forall2_insertIdx {R : Nat → Nat → Prop} {a b : Nat} (hab : R a b) :
    ∀ (k : Nat) {xs ys : List Nat}, List.Forall₂ R xs ys →
      List.Forall₂ R (xs.insertIdx k a) (ys.insertIdx k b) := by
  intro k
  induction k with
  | zero => intro xs ys h; exact List.Forall₂.cons hab h
  | succ k ih =>
      intro xs ys h
      cases h with
      | nil => exact List.Forall₂.nil
      | cons hxy htail => exact List.Forall₂.cons hxy (ih htail)

theorem forall2_eraseIdx {R : Nat → Nat → Prop} :
    ∀ (k : Nat) {xs ys : List Nat}, List.Forall₂ R xs ys →
      List.Forall₂ R (xs.eraseIdx k) (ys.eraseIdx k) := by
  intro k
  induction k with
  | zero =>
      intro xs ys h
      cases h with
      | nil => exact List.Forall₂.nil
      | cons _ htail => exact htail
  | succ k ih =>
      intro xs ys h
      cases h with
      | nil => exact List.Forall₂.nil
      | cons hxy htail => exact List.Forall₂.cons hxy (ih htail)

theorem forall2_getD {R : Nat → Nat → Prop} {xs ys : List Nat}
    (h : List.Forall₂ R xs ys) (k : Nat) (hk : k < xs.length) (d1 d2 : Nat) :
    R (xs.getD k d1) (ys.getD k d2) := by
  induction h generalizing k with
  | nil => simp at hk
  | cons hxy htail ih =>
      cases k with
      | zero => exact hxy
      | succ k => exact ih k (Nat.lt_of_succ_lt_succ hk)

theorem sumAxis_sum (shape : List Nat) (k : Nat) (flat : List ℚ)
    (hk : k < shape.length) (hlen : flat.length = prodNat shape) :
    (sumAxis shape k flat).sum = flat.sum := by
  have hshape : (shape.eraseIdx k).insertIdx k (shape.getD k 1) = shape :=
    insertIdx_getD_eraseIdx k shape 1 hk
  have hlenOut : ∀ j : Nat, (unravel (shape.eraseIdx k) j).length = (shape.eraseIdx k).length :=
    fun j => unravel_length _ _
  have hkOut : k ≤ (shape.eraseIdx k).length := by
    rw [List.length_eraseIdx_of_lt hk]
    omega
  unfold sumAxis
  rw [sum_map_range]
  calc
    (∑ j ∈ Finset.range (prodNat (shape.eraseIdx k)),
        ((List.range (shape.getD k 1)).map fun t =>
          flat.getD (ravel shape ((unravel (shape.eraseIdx k) j).insertIdx k t)) 0).sum)
        = ∑ j ∈ Finset.range (prodNat (shape.eraseIdx k)),
            ∑ t ∈ Finset.range (shape.getD k 1),
              flat.getD (ravel shape ((unravel (shape.eraseIdx k) j).insertIdx k t)) 0 :=
          Finset.sum_congr rfl fun j _ => sum_map_range _ _
    _ = ∑ p ∈ Finset.range (prodNat (shape.eraseIdx k)) ×ˢ
          Finset.range (shape.getD k 1),
            flat.getD (ravel shape ((unravel (shape.eraseIdx k) p.1).insertIdx k p.2)) 0 :=
          (Finset.sum_product (Finset.range (prodNat (shape.eraseIdx k)))
            (Finset.range (shape.getD k 1))
            fun p => flat.getD
              (ravel shape ((unravel (shape.eraseIdx k) p.1).insertIdx k p.2)) 0).symm
    _ = ∑ i ∈ Finset.range (prodNat shape), flat.getD i 0 := by
          apply Finset.sum_nbij'
            (fun p => ravel shape ((unravel (shape.eraseIdx k) p.1).insertIdx k p.2))
            (fun i => (ravel (shape.eraseIdx k) ((unravel shape i).eraseIdx k),
              (unravel shape i).getD k 0))
          · intro p hp
            rw [Finset.mem_product, Finset.mem_range, Finset.mem_range] at hp
            rw [Finset.mem_range]
            have h1 : List.Forall₂ (· < ·) (unravel (shape.eraseIdx k) p.1) (shape.eraseIdx k) :=
              unravel_forall2 _ _ hp.1
            have h2 := forall2_insertIdx hp.2 k h1
            rw [hshape] at h2
            exact ravel_lt _ _ h2
          · intro i hi
            rw [Finset.mem_range] at hi
            rw [Finset.mem_product, Finset.mem_range, Finset.mem_range]
            have h1 : List.Forall₂ (· < ·) (unravel shape i) shape := unravel_forall2 _ _ hi
            constructor
            · exact ravel_lt _ _ (forall2_eraseIdx k h1)
            · have := forall2_getD h1 k (by rw [unravel_length]; exact hk) 0 1
              exact this
          · intro p hp
            rw [Finset.mem_product, Finset.mem_range, Finset.mem_range] at hp
            have h1 : List.Forall₂ (· < ·) (unravel (shape.eraseIdx k) p.1) (shape.eraseIdx k) :=
              unravel_forall2 _ _ hp.1
            have h2 := forall2_insertIdx hp.2 k h1
            rw [hshape] at h2
            rw [unravel_ravel _ _ h2, List.eraseIdx_insertIdx,
              getD_insertIdx_self k p.2 _ 0 (by rw [hlenOut]; exact hkOut),
              ravel_unravel _ _ hp.1]
          · intro i hi
            rw [Finset.mem_range] at hi
            have h1 : List.Forall₂ (· < ·) (unravel shape i) shape := unravel_forall2 _ _ hi
            have hku : k < (unravel shape i).length := by rw [unravel_length]; exact hk
            rw [unravel_ravel _ _ (forall2_eraseIdx k h1),
              insertIdx_getD_eraseIdx k _ 0 hku, ravel_unravel _ _ hi]
          · intro p hp
            rfl
    _ = flat.sum := by rw [list_sum_getD, hlen]

theorem pos_lt_length (l : List Variable) (v : Variable) (hv : v ∈ l) :
    pos l v < l.length := by
  induction l with
  | nil => simp at hv
  | cons x rest ih =>
      by_cases hx : x = v
      · simp [pos, List.findIdx_cons, hx]
      · have hvr : v ∈ rest := by
          cases List.mem_cons.mp hv with
          | inl h => exact absurd h.symm hx
          | inr h => exact h
        have : pos (x :: rest) v = pos rest v + 1 := by
          simp [pos, List.findIdx_cons, hx]
        rw [this, List.length_cons]
        exact Nat.succ_lt_succ (ih hvr)

theorem findIdx?_of_mem (l : List Variable) (v : Variable) (hv : v ∈ l) :
    (l.findIdx? fun w => decide (w = v)) = some (pos l v) := by
  induction l with
  | nil => simp at hv
  | cons x rest ih =>
      by_cases hx : x = v
      · simp [List.findIdx?_cons, pos, List.findIdx_cons, hx]
      · have hvr : v ∈ rest := by
          cases List.mem_cons.mp hv with
          | inl h => exact absurd h.symm hx
          | inr h => exact h
        have hxd : decide (x = v) = false := decide_eq_false hx
        rw [List.findIdx?_cons, hxd]
        simp only [Bool.false_eq_true, if_false]
        rw [List.findIdx?_succ, ih hvr]
        have hpos : pos (x :: rest) v = pos rest v + 1 := by
          simp [pos, List.findIdx_cons, hxd]
        rw [hpos]
        rfl

theorem filter_ne_eq_eraseIdx_pos (l : List Variable) (v : Variable)
    (hl : l.Nodup) (hv : v ∈ l) :
    (l.filter fun w => decide (w ≠ v)) = l.eraseIdx (pos l v) := by
  induction l with
  | nil => simp at hv
  | cons x rest ih =>
      by_cases hx : x = v
      · have hpos : pos (x :: rest) v = 0 := by simp [pos, List.findIdx_cons, hx]
        rw [hpos]
        simp only [List.eraseIdx_cons_zero, List.filter_cons]
        have hxne : ¬(decide (x ≠ v) = true) := by simp [hx]
        rw [if_neg hxne]
        apply List.filter_eq_self.mpr
        intro w hw
        have : w ≠ v := by
          intro hEq
          exact (List.nodup_cons.mp hl).1 (hx ▸ hEq ▸ hw)
        simpa using this
      · have hvr : v ∈ rest := by
          cases List.mem_cons.mp hv with
          | inl h => exact absurd h.symm hx
          | inr h => exact h
        have hpos : pos (x :: rest) v = pos rest v + 1 := by
          simp [pos, List.findIdx_cons, hx]
        rw [hpos]
        simp only [List.eraseIdx_cons_succ, List.filter_cons]
        have hxne : decide (x ≠ v) = true := by simpa using hx
        rw [if_pos hxne, ih (List.nodup_cons.mp hl).2 hvr]

/-- C3: marginalizing a variable out of a normalized table (values summing
to one) leaves the normalization unchanged, removes exactly that variable
from the domain (agreeing with `Domain.__sub__`), and produces values that
again sum to one — no renormalization happens. -/
theorem marginalize_preserves_normalization (t : Table) (v : Variable)
    (hwf : TableWF t) (hsum : t.values.sum = 1) (hv : v ∈ t.domain)
    (hlen2 : 2 ≤ t.domain.length) :
    t.marginalize v =
      .ok { domain := t.domain.eraseIdx (pos t.domain v)
            values := sumAxis (shapeOf t.domain) (pos t.domain v) t.values
            normalization := t.normalization } ∧
    domSub t.domain v = .ok (t.domain.eraseIdx (pos t.domain v)) ∧
    (sumAxis (shapeOf t.domain) (pos t.domain v) t.values).sum = 1 := by
  obtain ⟨hlen, hnd, _⟩ := hwf
  have hposlt : pos t.domain v < t.domain.length := pos_lt_length _ _ hv
  have hklt : pos t.domain v < (shapeOf t.domain).length := by
    rw [shapeOf, List.length_map]
    exact hposlt
  have hsum2 : (sumAxis (shapeOf t.domain) (pos t.domain v) t.values).sum = 1 := by
    rw [sumAxis_sum _ _ _ hklt (by rw [hlen]; rfl), hsum]
  have hne : ¬(t.domain.eraseIdx (pos t.domain v)).length = 0 := by
    rw [List.length_eraseIdx_of_lt hposlt]
    omega
  have hnd2 : (t.domain.eraseIdx (pos t.domain v)).Nodup :=
    (List.eraseIdx_sublist t.domain (pos t.domain v)).nodup hnd
  refine ⟨?_, ?_, hsum2⟩
  · rw [Table.marginalize, findIdx?_of_mem t.domain v hv]
    show mkTable (t.domain.eraseIdx (pos t.domain v))
        (sumAxis (shapeOf t.domain) (pos t.domain v) t.values) t.normalization = _
    simp only [mkTable, mkDomain]
    rw [if_neg hne, if_pos hnd2]
    simp only [Bind.bind, Except.bind]
    rw [hsum2, if_pos (one_ne_zero : (1 : ℚ) ≠ 0)]
    simp only [pure, Except.pure, div_one, mul_one, Except.ok.injEq]
    simp
  · rw [domSub, if_pos hv, filter_ne_eq_eraseIdx_pos t.domain v hnd hv]

unseal Rat.add Rat.mul Rat.sub Rat.inv in
/-- Witness for `marginalize_preserves_normalization` at a concrete
normalized table over `(a, b)` and the variable `a`. -/
theorem marginalize_preserves_normalization_witness :
    c3T.marginalize va =
      .ok { domain := c3T.domain.eraseIdx (pos c3T.domain va)
            values := sumAxis (shapeOf c3T.domain) (pos c3T.domain va) c3T.values
            normalization := c3T.normalization } ∧
    domSub c3T.domain va = .ok (c3T.domain.eraseIdx (pos c3T.domain va)) ∧
    (sumAxis (shapeOf c3T.domain) (pos c3T.domain va) c3T.values).sum = 1 :=
  marginalize_preserves_normalization c3T va (by decide) (by decide) (by decide) (by decide)

/-! ## C4: the product formula of `Product.update` -/

theorem zipWith_shape_mul (sub full : List Variable) :
    List.zipWith (· * ·) (full.map fun v => if v ∈ sub then v.nbStates else 1)
      (full.map fun v => if v ∈ sub then 1 else v.nbStates) = shapeOf full := by
  induction full with
  | nil => rfl
  | cons x rest ih =>
      simp only [List.map_cons, List.zipWith_cons_cons, ih]
      by_cases hx : x ∈ sub
      · simp [hx, shapeOf]
      · simp [hx, shapeOf]

theorem map_length (sub full : List Variable) : (map sub full).length = size full := by
  unfold map tileFlat
  simp only [List.length_map, List.length_range]
  rw [zipWith_shape_mul]
  rfl

theorem getD_map {α β : Type} (f : α → β) (l : List α) (i : Nat) (da : α) (db : β)
    (hi : i < l.length) :
    (l.map f).getD i db = f (l.getD i da) := by
  induction l generalizing i with
  | nil => simp at hi
  | cons a as ih =>
      cases i with
      | zero => rfl
      | succ i => exact ih i (Nat.lt_of_succ_lt_succ hi)

theorem getD_zipWith {α β γ : Type} (f : α → β → γ) (as : List α) (bs : List β)
    (i : Nat) (da : α) (db : β) (dc : γ) (hia : i < as.length) (hib : i < bs.length) :
    (List.zipWith f as bs).getD i dc = f (as.getD i da) (bs.getD i db) := by
  induction as generalizing bs i with
  | nil => simp at hia
  | cons a as ih =>
      cases bs with
      | nil => simp at hib
      | cons b bs =>
          cases i with
          | zero => rfl
          | succ i => exact ih bs i (Nat.lt_of_succ_lt_succ hia) (Nat.lt_of_succ_lt_succ hib)

theorem product_raw_length (p : Product) : p.raw.length = size p.domain := by
  rw [Product.raw, List.length_zipWith, Product.leftMap, Product.rightMap,
    map_length, map_length]
  simp

theorem sum_map_div (l : List ℚ) (z : ℚ) :
    (l.map fun x => x / z).sum = l.sum / z := by
  induction l with
  | nil => simp
  | cons x rest ih => simp [ih, add_div]

/-- C4: `tables.Product.update` (the same arithmetic as
`_junction.Product.update`) computes the product through the two
precomputed index maps — entry `i` of the raw array is
`left.values.flat[left_map[i]] * right.values.flat[right_map[i]]` over the
union domain — and when the raw sum `z` is nonzero the stored values are
the raw products divided by `z` (so they sum to one) and the normalization
is `left.normalization * right.normalization * z`. -/
theorem product_update_formula (p : Product) (hz : p.raw.sum ≠ 0) :
    (∀ i, i < size p.domain →
      p.update.values.getD i 0 =
        p.left.values.getD (p.leftMap.getD i 0) 0 *
          p.right.values.getD (p.rightMap.getD i 0) 0 / p.raw.sum) ∧
    p.update.values.sum = 1 ∧
    p.update.normalization = p.left.normalization * p.right.normalization * p.raw.sum := by
  have hraw : p.raw.length = size p.domain := product_raw_length p
  have hval : p.update.values = p.raw.map fun x => x / p.raw.sum := rfl
  refine ⟨?_, ?_, rfl⟩
  · intro i hi
    have hi2 : i < p.raw.length := by rw [hraw]; exact hi
    have hiL : i < p.leftMap.length := by rw [Product.leftMap, map_length]; exact hi
    have hiR : i < p.rightMap.length := by rw [Product.rightMap, map_length]; exact hi
    rw [hval, getD_map _ _ _ 0 0 hi2]
    have hzip : p.raw.getD i 0 =
        p.left.values.getD (p.leftMap.getD i 0) 0 *
          p.right.values.getD (p.rightMap.getD i 0) 0 := by
      show (List.zipWith
        (fun a b => p.left.values.getD a 0 * p.right.values.getD b 0)
        p.leftMap p.rightMap).getD i 0 = _
      exact getD_zipWith _ _ _ i 0 0 0 hiL hiR
    rw [hzip]
  · rw [hval, sum_map_div, div_self hz]

unseal Rat.add Rat.mul Rat.sub Rat.inv in
/-- Witness for `product_update_formula` at a concrete product of tables
over `(a)` and `(a, b)`. -/
theorem product_update_formula_witness :
    (∀ i, i < size c4P.domain →
      c4P.update.values.getD i 0 =
        c4P.left.values.getD (c4P.leftMap.getD i 0) 0 *
          c4P.right.values.getD (c4P.rightMap.getD i 0) 0 / c4P.raw.sum) ∧
    c4P.update.values.sum = 1 ∧
    c4P.update.normalization =
      c4P.left.normalization * c4P.right.normalization * c4P.raw.sum :=
  product_update_formula c4P (by decide)

/-! ## C7: family cover of the compiled junction tree -/

theorem getTables_inner_mem (net : Network) (v : Variable) (acc : List Table) (x : Table) :
    x ∈ net.foldl
      (fun acc t =>
        if decide (v ∈ t.domain) && !(acc.any fun u => decide (u = t)) then acc ++ [t]
        else acc) acc ↔
    x ∈ acc ∨ (x ∈ net ∧ v ∈ x.domain) := by
  induction net generalizing acc with
  | nil => simp
  | cons t rest ih =>
      simp only [List.foldl_cons]
      by_cases h1 : v ∈ t.domain
      · by_cases h2 : (acc.any fun u => decide (u = t)) = true
        · have ht : t ∈ acc := by
            rw [List.any_eq_true] at h2
            obtain ⟨u, hu, he⟩ := h2
            rw [decide_eq_true_eq] at he
            exact he ▸ hu
          rw [if_neg (by simp [h1, h2]), ih]
          constructor
          · rintro (h | ⟨h3, h4⟩)
            · exact Or.inl h
            · exact Or.inr ⟨List.mem_cons_of_mem _ h3, h4⟩
          · rintro (h | ⟨h3, h4⟩)
            · exact Or.inl h
            · rcases List.mem_cons.mp h3 with rfl | h3
              · exact Or.inl ht
              · exact Or.inr ⟨h3, h4⟩
        · rw [if_pos (by simp [h1, h2]), ih]
          constructor
          · rintro (h | ⟨h3, h4⟩)
            · rcases List.mem_append.mp h with h | h
              · exact Or.inl h
              · rcases List.mem_singleton.mp h with rfl
                exact Or.inr ⟨List.mem_cons_self _ _, h1⟩
            · exact Or.inr ⟨List.mem_cons_of_mem _ h3, h4⟩
          · rintro (h | ⟨h3, h4⟩)
            · exact Or.inl (List.mem_append.mpr (Or.inl h))
            · rcases List.mem_cons.mp h3 with rfl | h3
              · exact Or.inl (List.mem_append.mpr (Or.inr (List.mem_singleton.mpr rfl)))
              · exact Or.inr ⟨h3, h4⟩
      · rw [if_neg (by simp [h1]), ih]
        constructor
        · rintro (h | ⟨h3, h4⟩)
          · exact Or.inl h
          · exact Or.inr ⟨List.mem_cons_of_mem _ h3, h4⟩
        · rintro (h | ⟨h3, h4⟩)
          · exact Or.inl h
          · rcases List.mem_cons.mp h3 with rfl | h3
            · exact absurd h4 h1
            · exact Or.inr ⟨h3, h4⟩

theorem getTables_mem_aux (net : Network) (vars : List Variable) (acc : List Table)
    (x : Table) :
    x ∈ vars.foldl
      (fun acc v => net.foldl
        (fun acc t =>
          if decide (v ∈ t.domain) && !(acc.any fun u => decide (u = t)) then acc ++ [t]
          else acc) acc) acc ↔
    x ∈ acc ∨ (x ∈ net ∧ ∃ v ∈ vars, v ∈ x.domain) := by
  induction vars generalizing acc with
  | nil => simp
  | cons v vrest ih =>
      simp only [List.foldl_cons]
      rw [ih, getTables_inner_mem]
      constructor
      · rintro ((h | ⟨h1, h2⟩) | ⟨h1, w, hw, h2⟩)
        · exact Or.inl h
        · exact Or.inr ⟨h1, v, List.mem_cons_self _ _, h2⟩
        · exact Or.inr ⟨h1, w, List.mem_cons_of_mem _ hw, h2⟩
      · rintro (h | ⟨h1, w, hw, h2⟩)
        · exact Or.inl (Or.inl h)
        · rcases List.mem_cons.mp hw with rfl | hw
          · exact Or.inl (Or.inr ⟨h1, h2⟩)
          · exact Or.inr ⟨h1, w, hw, h2⟩

theorem getTables_mem (net : Network) (vars : List Variable) (x : Table) :
    x ∈ getTables net vars ↔ x ∈ net ∧ ∃ v ∈ vars, v ∈ x.domain := by
  rw [getTables, getTables_mem_aux]
  simp

theorem freshTables_mem (net : Network) (used : List Table) (vars : List Variable)
    (x : Table) :
    x ∈ freshTables net used vars ↔
      (x ∈ net ∧ ∃ v ∈ vars, v ∈ x.domain) ∧ x ∉ used := by
  rw [freshTables, List.mem_filter, getTables_mem]
  refine and_congr_right fun _ => ?_
  simp only [Bool.not_eq_true', List.any_eq_false, decide_eq_false_iff_not]
  exact ⟨fun h hx => h x hx (by simp), fun h u hu he => h (of_decide_eq_true he ▸ hu)⟩

theorem removeNode_nodes (g : Graph) (v w : Variable) :
    w ∈ (g.removeNode v).nodes ↔ w ∈ g.nodes ∧ w ≠ v := by
  simp [Graph.removeNode, List.mem_filter]

theorem removeNode_linked (g : Graph) (v u w : Variable)
    (hu : u ≠ v) (hw : w ≠ v) (h : g.linked u w = true) :
    (g.removeNode v).linked u w = true := by
  simp only [Graph.linked, Graph.removeNode, Bool.or_eq_true, decide_eq_true_eq,
    List.mem_filter] at h ⊢
  rcases h with h | h
  · exact Or.inl ⟨h, by simp [hu, hw]⟩
  · exact Or.inr ⟨h, by simp [hu, hw]⟩

theorem removeNode_nodup (g : Graph) (v : Variable) (h : g.nodes.Nodup) :
    (g.removeNode v).nodes.Nodup := h.filter _

theorem removeNodes_nodes (X : List Variable) (g : Graph) (w : Variable) :
    w ∈ (X.foldl Graph.removeNode g).nodes ↔ w ∈ g.nodes ∧ w ∉ X := by
  induction X generalizing g with
  | nil => simp
  | cons x rest ih =>
      rw [List.foldl_cons, ih, removeNode_nodes]
      constructor
      · rintro ⟨⟨h1, h2⟩, h3⟩
        refine ⟨h1, fun hm => ?_⟩
        rcases List.mem_cons.mp hm with rfl | hm
        · exact h2 rfl
        · exact h3 hm
      · rintro ⟨h1, h2⟩
        exact ⟨⟨h1, fun hEq => h2 (hEq ▸ List.mem_cons_self _ _)⟩,
          fun hm => h2 (List.mem_cons_of_mem _ hm)⟩

theorem removeNodes_linked (X : List Variable) (g : Graph) (u w : Variable)
    (hu : u ∉ X) (hw : w ∉ X) (h : g.linked u w = true) :
    (X.foldl Graph.removeNode g).linked u w = true := by
  induction X generalizing g with
  | nil => exact h
  | cons x rest ih =>
      rw [List.foldl_cons]
      refine ih (g.removeNode x) (fun hm => hu (List.mem_cons_of_mem _ hm))
        (fun hm => hw (List.mem_cons_of_mem _ hm))
        (removeNode_linked g x u w (fun hEq => hu (hEq ▸ List.mem_cons_self _ _))
          (fun hEq => hw (hEq ▸ List.mem_cons_self _ _)) h)

theorem removeNodes_nodup (X : List Variable) (g : Graph) (h : g.nodes.Nodup) :
    (X.foldl Graph.removeNode g).nodes.Nodup := by
  induction X generalizing g with
  | nil => exact h
  | cons x rest ih => exact ih _ (removeNode_nodup g x h)

theorem makeSimplicial_nodes (g : Graph) (s : Variable) :
    (g.makeSimplicial s).nodes = g.nodes := rfl

theorem makeSimplicial_linked (g : Graph) (s u w : Variable)
    (h : g.linked u w = true) :
    (g.makeSimplicial s).linked u w = true := by
  simp only [Graph.linked, Graph.makeSimplicial, Bool.or_eq_true, decide_eq_true_eq,
    List.mem_append] at h ⊢
  rcases h with h | h
  · exact Or.inl (Or.inl h)
  · exact Or.inr (Or.inl h)

theorem mem_neighbors (g : Graph) (v w : Variable) :
    w ∈ g.neighbors v ↔ w ∈ g.nodes ∧ w ≠ v ∧ g.linked v w = true := by
  simp [Graph.neighbors, List.mem_filter, and_assoc]

theorem neighbors_nodup (g : Graph) (v : Variable) (h : g.nodes.Nodup) :
    (g.neighbors v).Nodup := h.filter _

theorem family_nodup (g : Graph) (v : Variable) (h : g.nodes.Nodup) :
    (g.family v).Nodup := by
  rw [Graph.family]
  apply List.Nodup.append (neighbors_nodup g v h) (List.nodup_singleton v)
  intro w hw hw2
  rcases List.mem_singleton.mp hw2 with rfl
  exact ((mem_neighbors g w w).mp hw).2.1 rfl

theorem family_subset (g : Graph) (v : Variable) (hv : v ∈ g.nodes) :
    ∀ w ∈ g.family v, w ∈ g.nodes := by
  intro w hw
  rcases List.mem_append.mp hw with hw | hw
  · exact ((mem_neighbors g v w).mp hw).1
  · rcases List.mem_singleton.mp hw with rfl
    exact hv

theorem foldl_ite_mem {α : Type} (p : α → α → Prop) [∀ a b, Decidable (p a b)]
    (l : List α) (S : List α) (hl : ∀ x ∈ l, x ∈ S) (init : α) (hinit : init ∈ S) :
    l.foldl (fun sel n => if p sel n then n else sel) init ∈ S := by
  induction l generalizing init with
  | nil => exact hinit
  | cons x rest ih =>
      rw [List.foldl_cons]
      by_cases hp : p init x
      · rw [if_pos hp]
        exact ih (fun y hy => hl y (List.mem_cons_of_mem _ hy)) x
          (hl x (List.mem_cons_self _ _))
      · rw [if_neg hp]
        exact ih (fun y hy => hl y (List.mem_cons_of_mem _ hy)) init hinit

theorem minimalFamily_mem (g : Graph) (s : Variable)
    (h : g.minimalFamily = some s) : s ∈ g.nodes := by
  unfold Graph.minimalFamily at h
  cases hn : g.nodes with
  | nil => rw [hn] at h; exact absurd h (by simp)
  | cons n0 rest =>
      rw [hn] at h
      have h2 := Option.some.inj h
      rw [← h2, ← hn]
      exact foldl_ite_mem _ g.nodes g.nodes (fun x hx => hx) n0 (by rw [hn]; simp)

theorem simplicialNode_mem (g : Graph) (s : Variable)
    (h : g.simplicialNode = some s) : s ∈ g.nodes :=
  List.mem_of_find?_eq_some h

theorem isolatedNode_mem (g : Graph) (v : Variable)
    (h : g.isolatedNode = some v) : v ∈ g.nodes :=
  List.mem_of_find?_eq_some h

theorem isolatedNode_isolated (g : Graph) (v : Variable)
    (h : g.isolatedNode = some v) : g.isIsolated v = true :=
  List.find?_some h

theorem countP_assign (net : Network) (buckets : List Bucket) (used : List Table)
    (vars : List Variable) (bucket : Bucket)
    (hb : bucket.tables = freshTables net used vars)
    (h1 : ∀ t ∈ net, (buckets.countP fun b => decide (t ∈ b.tables)) =
      if t ∈ used then 1 else 0) :
    ∀ t ∈ net, ((buckets ++ [bucket]).countP fun b => decide (t ∈ b.tables)) =
      if t ∈ used ++ freshTables net used vars then 1 else 0 := by
  intro t ht
  rw [List.countP_append, h1 t ht]
  have hsingle : ([bucket].countP fun b => decide (t ∈ b.tables)) =
      if t ∈ freshTables net used vars then 1 else 0 := by
    rw [List.countP_cons, List.countP_nil, hb]
    by_cases hf : t ∈ freshTables net used vars
    · simp [hf]
    · simp [hf]
  rw [hsingle]
  by_cases hu : t ∈ used
  · have hnf : t ∉ freshTables net used vars := fun hf =>
      ((freshTables_mem net used vars t).mp hf).2 hu
    simp [hu, hnf, List.mem_append]
  · by_cases hf : t ∈ freshTables net used vars
    · simp [hu, hf, List.mem_append]
    · simp [hu, hf, List.mem_append]

theorem combos_mem {α : Type} (l : List α) (u w : α) (hu : u ∈ l) (hw : w ∈ l)
    (hne : u ≠ w) : (u, w) ∈ combos l ∨ (w, u) ∈ combos l := by
  induction l with
  | nil => cases hu
  | cons x rest ih =>
      rw [combos]
      rcases List.mem_cons.mp hu with rfl | hu2
      · rcases List.mem_cons.mp hw with rfl | hw2
        · exact absurd rfl hne
        · exact Or.inl (List.mem_append_left _ (List.mem_map.mpr ⟨w, hw2, rfl⟩))
      · rcases List.mem_cons.mp hw with rfl | hw2
        · exact Or.inr (List.mem_append_left _ (List.mem_map.mpr ⟨u, hu2, rfl⟩))
        · rcases ih hu2 hw2 with h | h
          · exact Or.inl (List.mem_append_right _ h)
          · exact Or.inr (List.mem_append_right _ h)

theorem firstDedup_mem (l : List Variable) : ∀ (seen : List Variable) (v : Variable),
    v ∈ firstDedup seen l ↔ v ∈ l ∧ v ∉ seen := by
  induction l with
  | nil => intro seen v; simp [firstDedup]
  | cons x rest ih =>
      intro seen v
      rw [firstDedup]
      by_cases hx : x ∈ seen
      · rw [if_pos hx, ih]
        constructor
        · rintro ⟨h1, h2⟩; exact ⟨List.mem_cons_of_mem _ h1, h2⟩
        · rintro ⟨h1, h2⟩
          rcases List.mem_cons.mp h1 with rfl | h1
          · exact absurd hx h2
          · exact ⟨h1, h2⟩
      · rw [if_neg hx, List.mem_cons, ih]
        constructor
        · rintro (rfl | ⟨h1, h2⟩)
          · exact ⟨List.mem_cons_self _ _, hx⟩
          · exact ⟨List.mem_cons_of_mem _ h1, fun hs => h2 (List.mem_cons_of_mem _ hs)⟩
        · rintro ⟨h1, h2⟩
          by_cases hv : v = x
          · exact Or.inl hv
          · rcases List.mem_cons.mp h1 with rfl | h1
            · exact absurd rfl hv
            · refine Or.inr ⟨h1, fun hs => ?_⟩
              rcases List.mem_cons.mp hs with rfl | hs
              · exact hv rfl
              · exact h2 hs

theorem firstDedup_nodup (l : List Variable) : ∀ (seen : List Variable),
    (firstDedup seen l).Nodup := by
  induction l with
  | nil => intro seen; simp [firstDedup]
  | cons x rest ih =>
      intro seen
      rw [firstDedup]
      by_cases hx : x ∈ seen
      · rw [if_pos hx]; exact ih seen
      · rw [if_neg hx]
        refine List.nodup_cons.mpr ⟨fun hm => ?_, ih _⟩
        exact ((firstDedup_mem rest _ x).mp hm).2 (List.mem_cons_self _ _)

theorem networkDomain_mem (net : Network) (t : Table) (v : Variable)
    (ht : t ∈ net) (hv : v ∈ t.domain) : v ∈ networkDomain net := by
  rw [networkDomain, firstDedup_mem]
  exact ⟨List.mem_flatMap.mpr ⟨t, ht, hv⟩, List.not_mem_nil v⟩

theorem buildGraph_nodes_nodup (net : Network) : (buildGraph net).nodes.Nodup :=
  firstDedup_nodup _ []

theorem buildGraph_mem_nodes (net : Network) (t : Table) (v : Variable)
    (ht : t ∈ net) (hv : v ∈ t.domain) : v ∈ (buildGraph net).nodes :=
  networkDomain_mem net t v ht hv

theorem buildGraph_linked (net : Network) (t : Table) (u w : Variable)
    (ht : t ∈ net) (hu : u ∈ t.domain) (hw : w ∈ t.domain) (hne : u ≠ w) :
    (buildGraph net).linked u w = true := by
  rw [Graph.linked, Bool.or_eq_true, decide_eq_true_eq, decide_eq_true_eq]
  rcases combos_mem t.domain u w hu hw hne with h | h
  · exact Or.inl (List.mem_flatMap.mpr ⟨t, ht, h⟩)
  · exact Or.inr (List.mem_flatMap.mpr ⟨t, ht, h⟩)

theorem inv_init (net : Network) :
    Inv net (buildGraph net)
      { buckets := [], seps := [], subgraphVariables := [], used := [], nbRemoved := 0 } := by
  refine ⟨buildGraph_nodes_nodup net, ?_, ?_, ?_⟩
  · intro t ht
    simp
  · intro b hb; cases hb
  · intro t ht _
    exact ⟨fun v hv => buildGraph_mem_nodes net t v ht hv,
      fun u hu w hw hne => buildGraph_linked net t u w ht hu hw hne⟩

theorem isolatedLoop_inv (net : Network) :
    ∀ (fuel : Nat) (g : Graph) (st : BState), Inv net g st →
      Inv net (isolatedLoop net fuel g st).1 (isolatedLoop net fuel g st).2 := by
  intro fuel
  induction fuel with
  | zero => intro g st h; exact h
  | succ fuel ih =>
      intro g st h
      cases hiso : g.isolatedNode with
      | none => simp only [isolatedLoop, hiso]; exact h
      | some v =>
          simp only [isolatedLoop, hiso]
          apply ih
          obtain ⟨h1, h2, h3, h4⟩ := h
          have hNbr : g.neighbors v = [] :=
            List.isEmpty_iff.mp (isolatedNode_isolated g v hiso)
          refine ⟨removeNode_nodup g v h1, ?_, ?_, ?_⟩
          · exact countP_assign net st.buckets st.used [v]
              { vars := [v], out := none, separators := []
                tables := freshTables net st.used [v], index := -1 } rfl h2
          · intro b hb t ht w hw
            rcases List.mem_append.mp hb with hb | hb
            · exact h3 b hb t ht w hw
            · rcases List.mem_singleton.mp hb with rfl
              obtain ⟨⟨htn, u, hu, hud⟩, hnu⟩ :=
                (freshTables_mem net st.used [v] t).mp ht
              rcases List.mem_singleton.mp hu with rfl
              by_cases hwv : w = u
              · subst hwv; exact List.mem_singleton.mpr rfl
              · exfalso
                have hlink : g.linked u w = true :=
                  (h4 t htn hnu).2 u hud w hw (fun hq => hwv hq.symm)
                have hwN : w ∈ g.nodes := (h4 t htn hnu).1 w hw
                have hwNbr : w ∈ g.neighbors u :=
                  (mem_neighbors g u w).mpr ⟨hwN, hwv, hlink⟩
                rw [hNbr] at hwNbr
                cases hwNbr
          · intro t htn hnu'
            have hnu : t ∉ st.used := fun hm => hnu' (List.mem_append_left _ hm)
            have hnf : t ∉ freshTables net st.used [v] := fun hm =>
              hnu' (List.mem_append_right _ hm)
            obtain ⟨hdom, hlink⟩ := h4 t htn hnu
            have hvd : v ∉ t.domain := fun hvd =>
              hnf ((freshTables_mem net st.used [v] t).mpr
                ⟨⟨htn, v, List.mem_singleton.mpr rfl, hvd⟩, hnu⟩)
            refine ⟨fun w hw => ?_, fun u hu w hw hne => ?_⟩
            · exact (removeNode_nodes g v w).mpr
                ⟨hdom w hw, fun hq => hvd (hq ▸ hw)⟩
            · exact removeNode_linked g v u w (fun hq => hvd (hq ▸ hu))
                (fun hq => hvd (hq ▸ hw)) (hlink u hu w hw hne)

theorem elimLoop_succ_simplicial (net : Network) (orig fuel : Nat) (g : Graph)
    (st : BState) (s : Variable) (hs : g.simplicialNode = some s) :
    elimLoop net orig (fuel + 1) g st = elimBody net orig fuel g s st := by
  rw [elimLoop, hs]
  rfl

theorem elimLoop_succ_minimal (net : Network) (orig fuel : Nat) (g : Graph)
    (st : BState) (s : Variable) (hs : g.simplicialNode = none)
    (hm : g.minimalFamily = some s) :
    elimLoop net orig (fuel + 1) g st = elimBody net orig fuel (g.makeSimplicial s) s st := by
  rw [elimLoop, hs, hm]
  rfl

theorem elimLoop_succ_noselect (net : Network) (orig fuel : Nat) (g : Graph)
    (st : BState) (hs : g.simplicialNode = none) (hm : g.minimalFamily = none) :
    elimLoop net orig (fuel + 1) g st = .error .noneError := by
  rw [elimLoop, hs, hm]
  rfl

theorem inv_step (net : Network) (g g' : Graph) (st : BState)
    (hInv : Inv net g st)
    (hnodes : g'.nodes = g.nodes)
    (hmono : ∀ u w, g.linked u w = true → g'.linked u w = true)
    (family : List Variable)
    (bucket : Bucket)
    (hbv : bucket.vars = family)
    (hbt : bucket.tables = freshTables net st.used
      (family.filter fun n => (g'.family n).all fun w => decide (w ∈ family)))
    (st' : BState)
    (hsb : st'.buckets = st.buckets ++ [bucket])
    (hsu : st'.used = st.used ++ freshTables net st.used
      (family.filter fun n => (g'.family n).all fun w => decide (w ∈ family))) :
    Inv net ((family.filter fun n => (g'.family n).all fun w => decide (w ∈ family)).foldl
      Graph.removeNode g') st' := by
  obtain ⟨h1, h2, h3, h4⟩ := hInv
  refine ⟨removeNodes_nodup _ g' (by rw [hnodes]; exact h1), ?_, ?_, ?_⟩
  · rw [hsb, hsu]
    exact countP_assign net st.buckets st.used _ bucket hbt h2
  · rw [hsb]
    intro b hb t ht w hw
    rcases List.mem_append.mp hb with hb | hb
    · exact h3 b hb t ht w hw
    · rcases List.mem_singleton.mp hb with rfl
      rw [hbv]
      rw [hbt] at ht
      obtain ⟨⟨htn, n, hnTR, hnd⟩, hnu⟩ := (freshTables_mem net st.used _ t).mp ht
      obtain ⟨hnF, hnall⟩ := List.mem_filter.mp hnTR
      by_cases hwn : w = n
      · subst hwn; exact hnF
      · obtain ⟨hdom, hlink⟩ := h4 t htn hnu
        have hlk : g'.linked n w = true :=
          hmono n w (hlink n hnd w hw (fun hq => hwn hq.symm))
        have hwN : w ∈ g'.nodes := by rw [hnodes]; exact hdom w hw
        have hwNbr : w ∈ g'.neighbors n := (mem_neighbors g' n w).mpr ⟨hwN, hwn, hlk⟩
        have hwFam : w ∈ g'.family n := by
          rw [Graph.family]; exact List.mem_append_left _ hwNbr
        exact of_decide_eq_true (List.all_eq_true.mp hnall w hwFam)
  · rw [hsu]
    intro t htn hnu'
    have hnu : t ∉ st.used := fun hm => hnu' (List.mem_append_left _ hm)
    have hnf : t ∉ freshTables net st.used
        (family.filter fun n => (g'.family n).all fun w => decide (w ∈ family)) :=
      fun hm => hnu' (List.mem_append_right _ hm)
    obtain ⟨hdom, hlink⟩ := h4 t htn hnu
    have hdisj : ∀ n ∈ (family.filter fun n =>
        (g'.family n).all fun w => decide (w ∈ family)), n ∉ t.domain := fun n hn hnd =>
      hnf ((freshTables_mem net st.used _ t).mpr ⟨⟨htn, n, hn, hnd⟩, hnu⟩)
    refine ⟨fun w hw => ?_, fun u hu w hw hne => ?_⟩
    · exact (removeNodes_nodes _ g' w).mpr
        ⟨by rw [hnodes]; exact hdom w hw, fun hq => hdisj w hq hw⟩
    · exact removeNodes_linked _ g' u w (fun hq => hdisj u hq hu)
        (fun hq => hdisj w hq hw) (hmono u w (hlink u hu w hw hne))

theorem done_post (net : Network) (g g' : Graph) (st : BState)
    (hwf : ∀ t ∈ net, t.domain ≠ [])
    (hInv : Inv net g st)
    (hnodes : g'.nodes = g.nodes)
    (family : List Variable)
    (hcov : ∀ v ∈ g'.nodes, v ∈ family)
    (bucket : Bucket)
    (hbv : bucket.vars = family)
    (hbt : bucket.tables = freshTables net st.used family)
    (st' : BState)
    (hsb : st'.buckets = st.buckets ++ [bucket]) :
    BPost net st' := by
  obtain ⟨h1, h2, h3, h4⟩ := hInv
  have hused : ∀ t ∈ net, t ∈ st.used ++ freshTables net st.used family := by
    intro t htn
    by_cases hu : t ∈ st.used
    · exact List.mem_append_left _ hu
    · refine List.mem_append_right _ ?_
      obtain ⟨hdom, _⟩ := h4 t htn hu
      obtain ⟨v, hv⟩ := List.exists_mem_of_ne_nil _ (hwf t htn)
      exact (freshTables_mem net st.used family t).mpr
        ⟨⟨htn, v, hcov v (by rw [hnodes]; exact hdom v hv), hv⟩, hu⟩
  constructor
  · intro t htn
    rw [hsb]
    rw [countP_assign net st.buckets st.used family bucket hbt h2 t htn]
    rw [if_pos (hused t htn)]
  · rw [hsb]
    intro b hb t ht w hw
    rcases List.mem_append.mp hb with hb | hb
    · exact h3 b hb t ht w hw
    · rcases List.mem_singleton.mp hb with rfl
      rw [hbv]
      rw [hbt] at ht
      obtain ⟨⟨htn, _⟩, hnu⟩ := (freshTables_mem net st.used family t).mp ht
      obtain ⟨hdom, _⟩ := h4 t htn hnu
      exact hcov w (by rw [hnodes]; exact hdom w hw)

theorem elimBody_inv_step (net : Network) (orig fuel : Nat)
    (hwf : ∀ t ∈ net, t.domain ≠ [])
    (g g' : Graph) (s : Variable) (st st2 : BState)
    (hInv : Inv net g st)
    (hnodes : g'.nodes = g.nodes)
    (hmono : ∀ u w, g.linked u w = true → g'.linked u w = true)
    (hsmem : s ∈ g'.nodes)
    (ih : ∀ (g3 : Graph) (st3 st4 : BState), Inv net g3 st3 →
      elimLoop net orig fuel g3 st3 = .ok st4 → BPost net st4)
    (hrec : elimBody net orig fuel g' s st = .ok st2) :
    BPost net st2 := by
  simp only [elimBody] at hrec
  by_cases hlen : (g'.family s).length < g'.nodes.length
  · rw [if_pos hlen] at hrec
    by_cases hkeep : ((g'.family s).filter fun n =>
        !((g'.family n).all fun w => decide (w ∈ g'.family s))).length > 0
    · rw [if_pos hkeep] at hrec
      exact ih _ _ _
        (inv_step net g g' st ⟨hInv.1, hInv.2.1, hInv.2.2.1, hInv.2.2.2⟩ hnodes hmono
          (g'.family s) _ rfl rfl _ rfl rfl) hrec
    · rw [if_neg hkeep] at hrec
      exact ih _ _ _
        (inv_step net g g' st ⟨hInv.1, hInv.2.1, hInv.2.2.1, hInv.2.2.2⟩ hnodes hmono
          (g'.family s) _ rfl rfl _ rfl rfl) hrec
  · rw [if_neg hlen] at hrec
    have hle : g'.nodes.length ≤ (g'.family s).length := Nat.le_of_not_lt hlen
    have hnd : (g'.family s).Nodup := family_nodup g' s (by rw [hnodes]; exact hInv.1)
    have hsub : (g'.family s) ⊆ g'.nodes := fun v hv => family_subset g' s hsmem v hv
    have hperm : (g'.family s).Perm g'.nodes :=
      (List.Nodup.subperm hnd hsub).perm_of_length_le hle
    have hcov : ∀ v ∈ g'.nodes, v ∈ g'.family s := fun v hv => hperm.mem_iff.mpr hv
    obtain rfl := Except.ok.inj hrec
    exact done_post net g g' st hwf ⟨hInv.1, hInv.2.1, hInv.2.2.1, hInv.2.2.2⟩ hnodes
      (g'.family s) hcov _ rfl rfl _ rfl

theorem elimLoop_post (net : Network) (orig : Nat)
    (hwf : ∀ t ∈ net, t.domain ≠ []) :
    ∀ (fuel : Nat) (g : Graph) (st st2 : BState), Inv net g st →
      elimLoop net orig fuel g st = .ok st2 → BPost net st2 := by
  intro fuel
  induction fuel with
  | zero =>
      intro g st st2 _ hrec
      rw [elimLoop] at hrec
      cases hrec
  | succ fuel ih =>
      intro g st st2 hInv hrec
      cases hs : g.simplicialNode with
      | some s =>
          rw [elimLoop_succ_simplicial net orig fuel g st s hs] at hrec
          exact elimBody_inv_step net orig fuel hwf g g s st st2 hInv rfl
            (fun _ _ h => h) (simplicialNode_mem g s hs) ih hrec
      | none =>
          cases hm : g.minimalFamily with
          | none =>
              rw [elimLoop_succ_noselect net orig fuel g st hs hm] at hrec
              cases hrec
          | some s =>
              rw [elimLoop_succ_minimal net orig fuel g st s hs hm] at hrec
              exact elimBody_inv_step net orig fuel hwf g (g.makeSimplicial s) s st st2
                hInv (makeSimplicial_nodes g s)
                (fun u w h => makeSimplicial_linked g s u w h)
                (by rw [makeSimplicial_nodes]; exact minimalFamily_mem g s hm) ih hrec

theorem map_set_vt (bs : List Bucket) (j : Nat) (b2 : Bucket)
    (h : ∀ hj : j < bs.length, bucketVT b2 = bucketVT bs[j]) :
    (bs.set j b2).map bucketVT = bs.map bucketVT := by
  apply List.ext_getElem
  · simp
  · intro i h1 h2
    rw [List.getElem_map, List.getElem_map, List.getElem_set]
    by_cases hij : j = i
    · rw [if_pos hij]
      subst hij
      exact h (by simpa using h1)
    · rw [if_neg hij]

theorem foldl_linkstep_vt (seps : List SepRec) (l : List Nat) :
    ∀ (bs : List Bucket),
      ((l.foldl
        (fun bs k =>
          let sep := seps.getD k { vars := [], index := 0 }
          match bs.findIdx? fun b =>
              decide ((sep.index : Int) < b.index) &&
                (sep.vars.all fun v => decide (v ∈ b.vars)) with
          | none => bs
          | some j =>
              bs.set j
                (let b := bs.getD j { vars := [], out := none, separators := []
                                      tables := [], index := 0 }
                 { b with separators := b.separators ++ [k] })) bs).map bucketVT)
        = bs.map bucketVT := by
  induction l with
  | nil => intro bs; rfl
  | cons k rest ih =>
      intro bs
      rw [List.foldl_cons, ih]
      cases hf : bs.findIdx? fun b =>
          decide (((seps.getD k { vars := [], index := 0 }).index : Int) < b.index) &&
            ((seps.getD k { vars := [], index := 0 }).vars.all fun v =>
              decide (v ∈ b.vars)) with
      | none => simp only [hf]
      | some j =>
          simp only [hf]
          apply map_set_vt
          intro hj
          rw [List.getD_eq_getElem bs _ hj]
          rfl

theorem linkSeparators_vt (buckets : List Bucket) (seps : List SepRec) :
    (linkSeparators buckets seps).map bucketVT = buckets.map bucketVT :=
  foldl_linkstep_vt seps (List.range seps.length) buckets

theorem countP_bucketVT (bs bs2 : List Bucket)
    (h : bs.map bucketVT = bs2.map bucketVT) (t : Table) :
    (bs.countP fun b => decide (t ∈ b.tables)) =
      (bs2.countP fun b => decide (t ∈ b.tables)) := by
  have h1 : (bs.countP fun b => decide (t ∈ b.tables)) =
      ((bs.map bucketVT).countP fun p => decide (t ∈ p.2)) := by
    rw [List.countP_map]; rfl
  have h2 : (bs2.countP fun b => decide (t ∈ b.tables)) =
      ((bs2.map bucketVT).countP fun p => decide (t ∈ p.2)) := by
    rw [List.countP_map]; rfl
  rw [h1, h2, h]

theorem mem_bucketVT (bs bs2 : List Bucket) (h : bs.map bucketVT = bs2.map bucketVT)
    (b : Bucket) (hb : b ∈ bs) :
    ∃ b2 ∈ bs2, b2.vars = b.vars ∧ b2.tables = b.tables := by
  have hm : bucketVT b ∈ bs2.map bucketVT := h ▸ List.mem_map_of_mem bucketVT hb
  obtain ⟨b2, hb2, he⟩ := List.mem_map.mp hm
  exact ⟨b2, hb2, congrArg Prod.fst he, congrArg Prod.snd he⟩

/-- C7: for a network whose tables all have nonempty domains, whenever the
junction-tree construction succeeds, every table of the network is placed in
exactly one bucket, and the variables of that bucket include every variable
of the table's domain. -/
theorem junction_buckets_cover_tables (net : Network) (jt : JT)
    (hwf : ∀ t ∈ net, t.domain ≠ [])
    (hjt : compileJT net = .ok jt) :
    ∀ t ∈ net, (jt.buckets.countP fun b => decide (t ∈ b.tables)) = 1 ∧
      ∀ b ∈ jt.buckets, t ∈ b.tables → ∀ v ∈ t.domain, v ∈ b.vars := by
  simp only [compileJT] at hjt
  rcases hiso : isolatedLoop net ((buildGraph net).nodes.length + 1) (buildGraph net)
      { buckets := [], seps := [], subgraphVariables := [], used := [], nbRemoved := 0 }
    with ⟨g2, st1⟩
  simp only [hiso] at hjt
  cases helim : elimLoop net (buildGraph net).nodes.length (g2.nodes.length + 1) g2 st1 with
  | error e =>
      rw [helim] at hjt
      have h2 : (Except.error e : Except Err JT) = Except.ok jt := hjt
      cases h2
  | ok st2 =>
      rw [helim] at hjt
      have h2 : Except.ok (α := JT)
          { buckets := linkSeparators st2.buckets st2.seps
            separators := st2.seps
            subgraphVariables := st2.subgraphVariables } = Except.ok jt := hjt
      obtain rfl := Except.ok.inj h2
      have hInv1 : Inv net g2 st1 := by
        have h0 := isolatedLoop_inv net ((buildGraph net).nodes.length + 1) (buildGraph net)
          { buckets := [], seps := [], subgraphVariables := [], used := [], nbRemoved := 0 }
          (inv_init net)
        rw [hiso] at h0
        exact h0
      have hpost := elimLoop_post net (buildGraph net).nodes.length hwf
        (g2.nodes.length + 1) g2 st1 st2 hInv1 helim
      intro t ht
      constructor
      · have hc := countP_bucketVT (linkSeparators st2.buckets st2.seps) st2.buckets
          (linkSeparators_vt st2.buckets st2.seps) t
        exact hc.trans (hpost.1 t ht)
      · intro b hb htb v hv
        obtain ⟨b2, hb2, hvars, htables⟩ := mem_bucketVT
          (linkSeparators st2.buckets st2.seps) st2.buckets
          (linkSeparators_vt st2.buckets st2.seps) b hb
        rw [← hvars]
        exact hpost.2 b2 hb2 t (by rw [htables]; exact htb) v hv

set_option maxRecDepth 40000 in
unseal Rat.add Rat.mul Rat.sub Rat.inv in
theorem junction_buckets_cover_tables_witness :
    (jtN0.buckets.countP fun b =>
        decide (tbl [vd] [3/10, 7/10] ∈ b.tables)) = 1 ∧
      ∀ b ∈ jtN0.buckets, tbl [vd] [3/10, 7/10] ∈ b.tables →
        ∀ v ∈ (tbl [vd] [3/10, 7/10]).domain, v ∈ b.vars :=
  junction_buckets_cover_tables mixedNetwork jtN0 (by decide) (by decide)
    (tbl [vd] [3/10, 7/10]) (by decide)

theorem mul_eq_mkTable (a b : Table) :
    Table.mul a b = mkTable (mulDomain a b) (mulRaw a b)
      (a.normalization * b.normalization) := by
  simp only [Table.mul, mulParts, mulDomain]

theorem getD_pos (l : List Variable) (v : Variable) (hv : v ∈ l) (d : Variable) :
    l.getD (pos l v) d = v := by
  induction l with
  | nil => cases hv
  | cons x rest ih =>
      by_cases hx : x = v
      · simp [pos, List.findIdx_cons, hx]
      · have hvr : v ∈ rest := (List.mem_cons.mp hv).resolve_left fun h => hx h.symm
        have hp : pos (x :: rest) v = pos rest v + 1 := by
          simp [pos, List.findIdx_cons, hx]
        rw [hp, List.getD_cons_succ]
        exact ih hvr

theorem pos_getElem_of_nodup (l : List Variable) (hl : l.Nodup) (m : Nat)
    (hm : m < l.length) : pos l l[m] = m :=
  findIdx_get_of_nodup l hl m hm

theorem map_getD_pos {β : Type} (E : List Variable) (f : Variable → β) (v : Variable)
    (hv : v ∈ E) (d : β) : (E.map f).getD (pos E v) d = f v := by
  induction E with
  | nil => cases hv
  | cons x rest ih =>
      by_cases hx : x = v
      · simp [pos, List.findIdx_cons, hx]
      · have hvr : v ∈ rest := (List.mem_cons.mp hv).resolve_left fun h => hx h.symm
        have hp : pos (x :: rest) v = pos rest v + 1 := by
          simp [pos, List.findIdx_cons, hx]
        rw [hp, List.map_cons, List.getD_cons_succ]
        exact ih hvr

theorem findIdx_map {α β : Type} (l : List α) (f : α → β) (p : β → Bool) :
    (l.map f).findIdx p = l.findIdx fun x => p (f x) := by
  induction l with
  | nil => rfl
  | cons x rest ih => rw [List.map_cons, List.findIdx_cons, List.findIdx_cons, ih]

theorem findIdx_congr {α : Type} (l : List α) (p q : α → Bool)
    (h : ∀ x ∈ l, p x = q x) : l.findIdx p = l.findIdx q := by
  induction l with
  | nil => rfl
  | cons x rest ih =>
      rw [List.findIdx_cons, List.findIdx_cons, h x (List.mem_cons_self _ _),
        ih fun y hy => h y (List.mem_cons_of_mem _ hy)]

theorem pos_append_left (l1 l2 : List Variable) (v : Variable) (hv : v ∈ l1) :
    pos (l1 ++ l2) v = pos l1 v := by
  induction l1 with
  | nil => cases hv
  | cons x rest ih =>
      rw [List.cons_append]
      by_cases hx : x = v
      · simp [pos, List.findIdx_cons, hx]
      · have hvr : v ∈ rest := (List.mem_cons.mp hv).resolve_left fun h => hx h.symm
        have h1 : pos (x :: (rest ++ l2)) v = pos (rest ++ l2) v + 1 := by
          simp [pos, List.findIdx_cons, hx]
        have h2 : pos (x :: rest) v = pos rest v + 1 := by
          simp [pos, List.findIdx_cons, hx]
        rw [h1, h2, ih hvr]

theorem pos_append_right (l1 l2 : List Variable) (v : Variable) (hv : v ∉ l1) :
    pos (l1 ++ l2) v = l1.length + pos l2 v := by
  induction l1 with
  | nil => simp
  | cons x rest ih =>
      have hx : ¬ x = v := fun h => hv (List.mem_cons.mpr (Or.inl h.symm))
      have hvr : v ∉ rest := fun h => hv (List.mem_cons_of_mem _ h)
      rw [List.cons_append]
      have h1 : pos (x :: (rest ++ l2)) v = pos (rest ++ l2) v + 1 := by
        simp [pos, List.findIdx_cons, hx]
      rw [h1, ih hvr, List.length_cons]
      omega

theorem unravel_append (s1 s2 : List Nat) :
    ∀ (i : Nat), i < prodNat (s1 ++ s2) →
      unravel (s1 ++ s2) i =
        unravel s1 (i / prodNat s2) ++ unravel s2 (i % prodNat s2) := by
  induction s1 with
  | nil =>
      intro i hi
      rw [List.nil_append] at hi
      simp [unravel, Nat.mod_eq_of_lt hi]
  | cons x rest ih =>
      intro i hi
      rw [List.cons_append, prodNat_cons, prodNat_append] at hi
      have hP : 0 < prodNat rest * prodNat s2 := by
        rcases Nat.eq_zero_or_pos (prodNat rest * prodNat s2) with h0 | h
        · rw [h0, Nat.mul_zero] at hi; omega
        · exact h
      have hmod : i % (prodNat rest * prodNat s2) < prodNat (rest ++ s2) := by
        rw [prodNat_append]; exact Nat.mod_lt _ hP
      have hhead : i / prodNat (rest ++ s2) = i / prodNat s2 / prodNat rest := by
        rw [prodNat_append, Nat.div_div_eq_div_mul,
          Nat.mul_comm (prodNat s2) (prodNat rest)]
      have hdiv : i % (prodNat rest * prodNat s2) / prodNat s2 =
          i / prodNat s2 % prodNat rest := by
        rw [Nat.mul_comm (prodNat rest) (prodNat s2), Nat.mod_mul_right_div_self]
      have hmm : i % (prodNat rest * prodNat s2) % prodNat s2 = i % prodNat s2 :=
        Nat.mod_mod_of_dvd i (dvd_mul_left (prodNat s2) (prodNat rest))
      calc unravel ((x :: rest) ++ s2) i
          = i / prodNat (rest ++ s2) ::
              unravel (rest ++ s2) (i % prodNat (rest ++ s2)) := rfl
        _ = i / prodNat s2 / prodNat rest ::
              (unravel rest (i % (prodNat rest * prodNat s2) / prodNat s2) ++
                unravel s2 (i % (prodNat rest * prodNat s2) % prodNat s2)) := by
              rw [hhead]
              rw [show i % prodNat (rest ++ s2) = i % (prodNat rest * prodNat s2) from
                by rw [prodNat_append]]
              rw [ih (i % (prodNat rest * prodNat s2)) hmod]
        _ = i / prodNat s2 / prodNat rest ::
              (unravel rest (i / prodNat s2 % prodNat rest) ++
                unravel s2 (i % prodNat s2)) := by
              rw [hdiv, hmm]
        _ = unravel (x :: rest) (i / prodNat s2) ++ unravel s2 (i % prodNat s2) := rfl

theorem forall2_map_map {α : Type} {R : Nat → Nat → Prop} (l : List α) (f g : α → Nat)
    (h : ∀ x ∈ l, R (f x) (g x)) : List.Forall₂ R (l.map f) (l.map g) := by
  induction l with
  | nil => exact List.Forall₂.nil
  | cons x rest ih =>
      exact List.Forall₂.cons (h x (List.mem_cons_self _ _))
        (ih fun y hy => h y (List.mem_cons_of_mem _ hy))

theorem shapeOf_getD_pos (l : List Variable) (v : Variable) (hv : v ∈ l) (d : Nat) :
    (shapeOf l).getD (pos l v) d = v.nbStates :=
  map_getD_pos l Variable.nbStates v hv d

theorem semMap_coords_forall2 (full sub : List Variable) (hsub : ∀ v ∈ sub, v ∈ full)
    (i : Nat) (hi : i < size full) :
    List.Forall₂ (· < ·)
      (sub.map fun v => (unravel (shapeOf full) i).getD (pos full v) 0) (shapeOf sub) := by
  show List.Forall₂ (· < ·) _ (sub.map Variable.nbStates)
  apply forall2_map_map
  intro v hv
  have hvD : v ∈ full := hsub v hv
  have h2 := forall2_getD (unravel_forall2 (shapeOf full) i hi) (pos full v)
    (by simpa [unravel_length, shapeOf] using pos_lt_length full v hvD) 0 1
  rw [shapeOf_getD_pos full v hvD 1] at h2
  exact h2

theorem semMap_lt (full sub : List Variable) (hsub : ∀ v ∈ sub, v ∈ full)
    (i : Nat) (hi : i < size full) : semMap full sub i < size sub :=
  ravel_lt _ _ (semMap_coords_forall2 full sub hsub i hi)

theorem semMap_self (l : List Variable) (hl : l.Nodup) (i : Nat) (hi : i < size l) :
    semMap l l i = i := by
  rw [semMap]
  have hmap : (l.map fun v => (unravel (shapeOf l) i).getD (pos l v) 0) =
      unravel (shapeOf l) i := by
    apply List.ext_getElem
    · simp [unravel_length, shapeOf]
    · intro m h1 h2
      simp only [List.getElem_map]
      rw [pos_getElem_of_nodup l hl m (by simpa using h1)]
      rw [List.getD_eq_getElem _ 0 h2]
  rw [hmap]
  exact ravel_unravel (shapeOf l) i hi

theorem semMap_comp (D E sub : List Variable) (hperm : E.Perm D)
    (hsub : ∀ v ∈ sub, v ∈ E) (i : Nat) (hi : i < size D) :
    semMap E sub (semMap D E i) = semMap D sub i := by
  simp only [semMap]
  rw [unravel_ravel _ _ (semMap_coords_forall2 D E (fun v hv => hperm.subset hv) i hi)]
  congr 1
  apply List.map_congr_left
  intro v hv
  exact map_getD_pos E _ v (hsub v hv) 0

theorem permuteIdx_perm (dom perm : List Variable) (hnd : dom.Nodup)
    (hperm : perm.Perm dom) (idx : List Nat) :
    permuteIdx (perm.map fun v => pos dom v) idx =
      dom.map fun v => idx.getD (pos perm v) 0 := by
  apply List.ext_getElem
  · simp [permuteIdx, hperm.length_eq]
  · intro m h1 h2
    simp only [permuteIdx, List.length_map, List.getElem_map, List.getElem_range]
    have hm : m < dom.length := by simpa using h2
    congr 1
    rw [findIdx_map]
    rw [findIdx_congr perm _ (fun v => decide (v = dom[m])) ?_]
    · rfl
    · intro v hv
      have hvD : v ∈ dom := hperm.subset hv
      apply decide_eq_decide.mpr
      constructor
      · intro hEq
        have hgd := getD_pos dom v hvD v
        rw [hEq] at hgd
        rw [List.getD_eq_getElem dom v hm] at hgd
        exact hgd.symm
      · intro hEq
        rw [hEq]
        exact pos_getElem_of_nodup dom hnd m hm

theorem transposeFlat_getD (dom perm : List Variable) (vals : List ℚ)
    (hnd : dom.Nodup) (hperm : perm.Perm dom) (i : Nat) (hi : i < size perm) :
    (transposeFlat (shapeOf dom) (perm.map fun v => pos dom v) vals 0).getD i 0 =
      vals.getD (semMap perm dom i) 0 := by
  have houtShape : ((perm.map fun v => pos dom v).map fun k => (shapeOf dom).getD k 1) =
      shapeOf perm := by
    rw [List.map_map]
    apply List.map_congr_left
    intro v hv
    exact shapeOf_getD_pos dom v (hperm.subset hv) 1
  simp only [transposeFlat]
  rw [houtShape]
  rw [getD_map _ _ i 0 0 (by simpa [size] using hi)]
  have hrange : (List.range (prodNat (shapeOf perm))).getD i 0 = i := by
    rw [List.getD_eq_getElem _ 0 (by simpa [size] using hi), List.getElem_range]
  rw [hrange]
  rw [permuteIdx_perm dom perm hnd hperm]
  rfl

theorem size_append (l1 l2 : List Variable) :
    size (l1 ++ l2) = size l1 * size l2 := by
  show prodNat ((l1 ++ l2).map Variable.nbStates) =
    prodNat (l1.map Variable.nbStates) * prodNat (l2.map Variable.nbStates)
  rw [List.map_append, prodNat_append]

theorem mem_mulDomain (a b : Table) (v : Variable) :
    v ∈ mulDomain a b ↔ v ∈ a.domain ∨ v ∈ b.domain := by
  simp only [mulDomain, List.mem_append, List.mem_filter, decide_eq_true_eq]
  by_cases hva : v ∈ a.domain <;> by_cases hvb : v ∈ b.domain <;> simp [hva, hvb]

theorem mulDomain_nodup (a b : Table) (ha : a.domain.Nodup) (hb : b.domain.Nodup) :
    (mulDomain a b).Nodup := by
  rw [mulDomain]
  apply List.Nodup.append
  · apply List.Nodup.append (ha.filter _) (ha.filter _)
    intro v hv1 hv2
    exact of_decide_eq_true (List.mem_filter.mp hv1).2
      (of_decide_eq_true (List.mem_filter.mp hv2).2)
  · exact hb.filter _
  · intro v hv1 hv2
    have hva : v ∈ a.domain := by
      rcases List.mem_append.mp hv1 with h | h
      · exact (List.mem_filter.mp h).1
      · exact (List.mem_filter.mp h).1
    exact of_decide_eq_true (List.mem_filter.mp hv2).2 hva

theorem leftDomain_perm (a b : Table) :
    ((a.domain.filter fun v => decide (v ∉ b.domain)) ++
      (a.domain.filter fun v => decide (v ∈ b.domain))).Perm a.domain := by
  have h := List.filter_append_perm (fun v => decide (v ∉ b.domain)) a.domain
  have he : (a.domain.filter fun v => !decide (v ∉ b.domain)) =
      (a.domain.filter fun v => decide (v ∈ b.domain)) := by
    apply List.filter_congr
    intro x _
    by_cases hx : x ∈ b.domain <;> simp [hx]
  rw [he] at h
  exact h

theorem rightDomain_perm (a b : Table) (ha : a.domain.Nodup) (hb : b.domain.Nodup) :
    ((a.domain.filter fun v => decide (v ∈ b.domain)) ++
      (b.domain.filter fun v => decide (v ∉ a.domain))).Perm b.domain := by
  apply List.Subperm.antisymm
  · apply List.Nodup.subperm
    · apply List.Nodup.append (ha.filter _) (hb.filter _)
      intro v hv1 hv2
      exact of_decide_eq_true (List.mem_filter.mp hv2).2 (List.mem_filter.mp hv1).1
    · intro v hv
      rcases List.mem_append.mp hv with h | h
      · exact of_decide_eq_true (List.mem_filter.mp h).2
      · exact (List.mem_filter.mp h).1
  · apply List.Nodup.subperm hb
    intro v hv
    by_cases hva : v ∈ a.domain
    · exact List.mem_append_left _ (List.mem_filter.mpr ⟨hva, decide_eq_true hv⟩)
    · exact List.mem_append_right _ (List.mem_filter.mpr ⟨hv, decide_eq_true hva⟩)

theorem mulDomain_perm_comm (a b : Table) (ha : a.domain.Nodup) (hb : b.domain.Nodup) :
    (mulDomain b a).Perm (mulDomain a b) := by
  apply List.Subperm.antisymm
  · apply List.Nodup.subperm (mulDomain_nodup b a hb ha)
    intro v hv
    exact (mem_mulDomain a b v).mpr (Or.symm ((mem_mulDomain b a v).mp hv))
  · apply List.Nodup.subperm (mulDomain_nodup a b ha hb)
    intro v hv
    exact (mem_mulDomain b a v).mpr (Or.symm ((mem_mulDomain a b v).mp hv))

theorem semMap_append_left (l1 l2 sub : List Variable) (hdom : ∀ v ∈ sub, v ∈ l1)
    (i : Nat) (hi : i < size (l1 ++ l2)) :
    semMap (l1 ++ l2) sub i = semMap l1 sub (i / prodNat (shapeOf l2)) := by
  have hsh : shapeOf (l1 ++ l2) = shapeOf l1 ++ shapeOf l2 := List.map_append _ _ _
  simp only [semMap]
  congr 1
  apply List.map_congr_left
  intro v hv
  have hv1 : v ∈ l1 := hdom v hv
  rw [hsh, unravel_append (shapeOf l1) (shapeOf l2) i (by rw [← hsh]; exact hi)]
  rw [pos_append_left l1 l2 v hv1]
  have hplt : pos l1 v < (unravel (shapeOf l1) (i / prodNat (shapeOf l2))).length := by
    rw [unravel_length]
    simpa [shapeOf] using pos_lt_length l1 v hv1
  rw [List.getD_append _ _ 0 _ hplt]

theorem semMap_append_right (l1 l2 sub : List Variable)
    (hdom : ∀ v ∈ sub, v ∈ l2 ∧ v ∉ l1)
    (i : Nat) (hi : i < size (l1 ++ l2)) :
    semMap (l1 ++ l2) sub i = semMap l2 sub (i % prodNat (shapeOf l2)) := by
  have hsh : shapeOf (l1 ++ l2) = shapeOf l1 ++ shapeOf l2 := List.map_append _ _ _
  simp only [semMap]
  congr 1
  apply List.map_congr_left
  intro v hv
  rw [hsh, unravel_append (shapeOf l1) (shapeOf l2) i (by rw [← hsh]; exact hi)]
  rw [pos_append_right l1 l2 v (hdom v hv).2]
  rw [List.getD_append_right _ _ 0 _ (by simp [unravel_length, shapeOf])]
  congr 1
  rw [unravel_length, shapeOf, List.length_map]
  omega

theorem mkTable_ok_of_nonzero (dom : List Variable) (values : List ℚ) (n : ℚ)
    (hd : dom ≠ []) (hnd : dom.Nodup) (hz : values.sum ≠ 0) :
    mkTable dom values n = .ok
      { domain := dom
        values := values.map (· / values.sum)
        normalization := n * values.sum } := by
  have h1 : mkDomain dom = .ok dom := by
    rw [mkDomain, if_neg (by simpa using hd), if_pos hnd]
  rw [mkTable, h1]
  show (if values.sum ≠ 0 then
      (Except.ok
        { domain := dom
          values := values.map (· / values.sum)
          normalization := n * values.sum } : Except Err Table)
    else Except.ok { domain := dom, values := values, normalization := n }) = _
  rw [if_pos hz]

theorem mulRaw_length (a b : Table) : (mulRaw a b).length = size (mulDomain a b) := by
  simp only [mulRaw, mulParts, mulDomain, List.length_map, List.length_range]

theorem mulRaw_getD (a b : Table) (ha : a.domain.Nodup) (hb : b.domain.Nodup)
    (i : Nat) (hi : i < size (mulDomain a b)) :
    (mulRaw a b).getD i 0 =
      a.values.getD (semMap (mulDomain a b) a.domain i) 0 *
        b.values.getD (semMap (mulDomain a b) b.domain i) 0 := by
  simp only [mulDomain] at hi ⊢
  simp only [mulRaw, mulParts]
  rw [getD_map _ _ i 0 0 (by simpa [size] using hi)]
  have hrange : (List.range (size
      ((a.domain.filter fun v => decide (v ∉ b.domain)) ++
        (a.domain.filter fun v => decide (v ∈ b.domain)) ++
        (b.domain.filter fun v => decide (v ∉ a.domain))))).getD i 0 = i := by
    rw [List.getD_eq_getElem _ 0 (by simpa [size] using hi), List.getElem_range]
  rw [hrange]
  have hpermL := leftDomain_perm a b
  have hpermR := rightDomain_perm a b ha hb
  have hS1 : size ((a.domain.filter fun v => decide (v ∉ b.domain)) ++
      (a.domain.filter fun v => decide (v ∈ b.domain)) ++
      (b.domain.filter fun v => decide (v ∉ a.domain))) =
      size ((a.domain.filter fun v => decide (v ∉ b.domain)) ++
        (a.domain.filter fun v => decide (v ∈ b.domain))) *
      size (b.domain.filter fun v => decide (v ∉ a.domain)) := size_append _ _
  have hassoc : (a.domain.filter fun v => decide (v ∉ b.domain)) ++
      (a.domain.filter fun v => decide (v ∈ b.domain)) ++
      (b.domain.filter fun v => decide (v ∉ a.domain)) =
      (a.domain.filter fun v => decide (v ∉ b.domain)) ++
        ((a.domain.filter fun v => decide (v ∈ b.domain)) ++
          (b.domain.filter fun v => decide (v ∉ a.domain))) := List.append_assoc _ _ _
  have hS2 : size ((a.domain.filter fun v => decide (v ∉ b.domain)) ++
      (a.domain.filter fun v => decide (v ∈ b.domain)) ++
      (b.domain.filter fun v => decide (v ∉ a.domain))) =
      size (a.domain.filter fun v => decide (v ∉ b.domain)) *
      size ((a.domain.filter fun v => decide (v ∈ b.domain)) ++
        (b.domain.filter fun v => decide (v ∉ a.domain))) := by
    rw [hassoc, size_append]
  have hposR : 0 < prodNat (shapeOf (b.domain.filter fun v => decide (v ∉ a.domain))) := by
    rcases Nat.eq_zero_or_pos
      (prodNat (shapeOf (b.domain.filter fun v => decide (v ∉ a.domain)))) with h0 | h
    · have h0s : size (b.domain.filter fun v => decide (v ∉ a.domain)) = 0 := h0
      rw [hS1, h0s, Nat.mul_zero] at hi
      omega
    · exact h
  have hposRD : 0 < prodNat (shapeOf ((a.domain.filter fun v => decide (v ∈ b.domain)) ++
      (b.domain.filter fun v => decide (v ∉ a.domain)))) := by
    rcases Nat.eq_zero_or_pos
      (prodNat (shapeOf ((a.domain.filter fun v => decide (v ∈ b.domain)) ++
        (b.domain.filter fun v => decide (v ∉ a.domain))))) with h0 | h
    · have h0s : size ((a.domain.filter fun v => decide (v ∈ b.domain)) ++
        (b.domain.filter fun v => decide (v ∉ a.domain))) = 0 := h0
      rw [hS2, h0s, Nat.mul_zero] at hi
      omega
    · exact h
  have hltL : i / prodNat (shapeOf (b.domain.filter fun v => decide (v ∉ a.domain))) <
      size ((a.domain.filter fun v => decide (v ∉ b.domain)) ++
        (a.domain.filter fun v => decide (v ∈ b.domain))) := by
    apply (Nat.div_lt_iff_lt_mul hposR).mpr
    rw [hS1] at hi
    exact hi
  have hltR : i % prodNat (shapeOf ((a.domain.filter fun v => decide (v ∈ b.domain)) ++
      (b.domain.filter fun v => decide (v ∉ a.domain)))) <
      size ((a.domain.filter fun v => decide (v ∈ b.domain)) ++
        (b.domain.filter fun v => decide (v ∉ a.domain))) :=
    Nat.mod_lt _ hposRD
  congr 1
  · rw [transposeFlat_getD a.domain _ a.values ha hpermL _ hltL]
    rw [semMap_append_left _ _ a.domain
      (fun v hv => hpermL.mem_iff.mpr hv) i hi]
  · rw [transposeFlat_getD b.domain _ b.values hb hpermR _ hltR]
    rw [hassoc]
    rw [semMap_append_right _ _ b.domain
      (fun v hv => ⟨hpermR.mem_iff.mpr hv, fun hvL => by
        have hx : decide (v ∉ b.domain) = true := (List.mem_filter.mp hvL).2
        exact of_decide_eq_true hx hv⟩) i
      (by rw [← hassoc]; exact hi)]

theorem mulRaw_sum_comm (a b : Table) (ha : a.domain.Nodup) (hb : b.domain.Nodup) :
    (mulRaw b a).sum = (mulRaw a b).sum := by
  have hsubD : ∀ v ∈ mulDomain a b, v ∈ mulDomain b a := fun v hv =>
    (mem_mulDomain b a v).mpr (Or.symm ((mem_mulDomain a b v).mp hv))
  have hsubD' : ∀ v ∈ mulDomain b a, v ∈ mulDomain a b := fun v hv =>
    (mem_mulDomain a b v).mpr (Or.symm ((mem_mulDomain b a v).mp hv))
  rw [list_sum_getD, list_sum_getD, mulRaw_length, mulRaw_length]
  apply Finset.sum_nbij' (fun j => semMap (mulDomain b a) (mulDomain a b) j)
    (fun i => semMap (mulDomain a b) (mulDomain b a) i)
  · intro j hj
    rw [Finset.mem_range] at hj ⊢
    exact semMap_lt _ _ hsubD j hj
  · intro i hi
    rw [Finset.mem_range] at hi ⊢
    exact semMap_lt _ _ hsubD' i hi
  · intro j hj
    rw [Finset.mem_range] at hj
    rw [semMap_comp (mulDomain b a) (mulDomain a b) (mulDomain b a)
      (mulDomain_perm_comm a b ha hb).symm hsubD' j hj]
    exact semMap_self (mulDomain b a) (mulDomain_nodup b a hb ha) j hj
  · intro i hi
    rw [Finset.mem_range] at hi
    rw [semMap_comp (mulDomain a b) (mulDomain b a) (mulDomain a b)
      (mulDomain_perm_comm a b ha hb) hsubD i hi]
    exact semMap_self (mulDomain a b) (mulDomain_nodup a b ha hb) i hi
  · intro j hj
    rw [Finset.mem_range] at hj
    have hjD : semMap (mulDomain b a) (mulDomain a b) j < size (mulDomain a b) :=
      semMap_lt _ _ hsubD j hj
    rw [mulRaw_getD b a hb ha j hj]
    rw [mulRaw_getD a b ha hb _ hjD]
    rw [semMap_comp (mulDomain b a) (mulDomain a b) a.domain
      (mulDomain_perm_comm a b ha hb).symm
      (fun v hv => (mem_mulDomain a b v).mpr (Or.inl hv)) j hj]
    rw [semMap_comp (mulDomain b a) (mulDomain a b) b.domain
      (mulDomain_perm_comm a b ha hb).symm
      (fun v hv => (mem_mulDomain a b v).mpr (Or.inr hv)) j hj]
    ring

/-- C9 (amended): for tables with duplicate-free domains whose raw product
sum is nonzero, the two products `A ⊗ B` and `B ⊗ A` are equal as tables in
the semantic sense the spec intends: set-equal domains, equal
normalizations, and values that agree after remapping flat indices through
the index map between the two domain orders. -/
theorem table_mul_comm_semantic (a b : Table)
    (ha : a.domain.Nodup) (hb : b.domain.Nodup)
    (hz : (mulRaw a b).sum ≠ 0)
    (c c' : Table)
    (hc : Table.mul a b = .ok c) (hc' : Table.mul b a = .ok c') :
    domainSetEq c.domain c'.domain = true ∧
    c'.normalization = c.normalization ∧
    ∀ i, i < size c.domain →
      c'.values.getD (semMap c.domain c'.domain i) 0 = c.values.getD i 0 := by
  have hz' : (mulRaw b a).sum ≠ 0 := by
    rw [mulRaw_sum_comm a b ha hb]; exact hz
  have hd : mulDomain a b ≠ [] := by
    intro h0
    rw [mul_eq_mkTable, h0] at hc
    have h2 : (Except.error Err.emptyDomain : Except Err Table) = Except.ok c := hc
    cases h2
  have hd' : mulDomain b a ≠ [] := by
    intro h0
    rw [mul_eq_mkTable, h0] at hc'
    have h2 : (Except.error Err.emptyDomain : Except Err Table) = Except.ok c' := hc'
    cases h2
  rw [mul_eq_mkTable, mkTable_ok_of_nonzero _ _ _ hd (mulDomain_nodup a b ha hb) hz] at hc
  rw [mul_eq_mkTable, mkTable_ok_of_nonzero _ _ _ hd' (mulDomain_nodup b a hb ha) hz']
    at hc'
  obtain rfl := Except.ok.inj hc
  obtain rfl := Except.ok.inj hc'
  refine ⟨?_, ?_, ?_⟩
  · rw [domainSetEq, Bool.and_eq_true]
    constructor
    · rw [List.all_eq_true]
      intro v hv
      exact decide_eq_true ((mem_mulDomain b a v).mpr
        (Or.symm ((mem_mulDomain a b v).mp hv)))
    · rw [List.all_eq_true]
      intro v hv
      exact decide_eq_true ((mem_mulDomain a b v).mpr
        (Or.symm ((mem_mulDomain b a v).mp hv)))
  · show b.normalization * a.normalization * (mulRaw b a).sum =
      a.normalization * b.normalization * (mulRaw a b).sum
    rw [mulRaw_sum_comm a b ha hb]
    ring
  · intro i hi
    have hiD : i < size (mulDomain a b) := hi
    have hjD : semMap (mulDomain a b) (mulDomain b a) i < size (mulDomain b a) :=
      semMap_lt _ _ (fun v hv => (mem_mulDomain a b v).mpr
        (Or.symm ((mem_mulDomain b a v).mp hv))) i hiD
    show ((mulRaw b a).map (· / (mulRaw b a).sum)).getD
        (semMap (mulDomain a b) (mulDomain b a) i) 0 =
      ((mulRaw a b).map (· / (mulRaw a b).sum)).getD i 0
    rw [getD_map _ _ _ 0 0 (by rw [mulRaw_length]; exact hjD)]
    rw [getD_map _ _ _ 0 0 (by rw [mulRaw_length]; exact hiD)]
    show (mulRaw b a).getD (semMap (mulDomain a b) (mulDomain b a) i) 0 /
        (mulRaw b a).sum =
      (mulRaw a b).getD i 0 / (mulRaw a b).sum
    rw [mulRaw_sum_comm a b ha hb]
    congr 1
    rw [mulRaw_getD b a hb ha _ hjD]
    rw [mulRaw_getD a b ha hb i hiD]
    rw [semMap_comp (mulDomain a b) (mulDomain b a) a.domain
      (mulDomain_perm_comm a b ha hb)
      (fun v hv => (mem_mulDomain b a v).mpr (Or.inr hv)) i hiD]
    rw [semMap_comp (mulDomain a b) (mulDomain b a) b.domain
      (mulDomain_perm_comm a b ha hb)
      (fun v hv => (mem_mulDomain b a v).mpr (Or.inl hv)) i hiD]
    ring

set_option maxRecDepth 40000 in
unseal Rat.add Rat.mul Rat.sub Rat.inv in
theorem table_mul_comm_semantic_witness :
    ceA.domain.Nodup ∧
    (domainSetEq ceAB.domain ceBA.domain = true ∧
      ceBA.normalization = ceAB.normalization ∧
      ∀ i, i < size ceAB.domain →
        ceBA.values.getD (semMap ceAB.domain ceBA.domain i) 0 =
          ceAB.values.getD i 0) :=
  ⟨by decide, table_mul_comm_semantic ceA ceB (by decide) (by decide) (by decide)
    ceAB ceBA (by decide) (by decide)⟩

end Bayesian
